import Mathlib

/-!
Shallow embedding of the rrt library (src/src/lib.rs), a sampling-based
motion-planning core: an incrementally grown parent-pointer tree over
configuration-space points, the extend / extend_rewire / connect growth
primitives, the dual_rrt_connect and rrt_star_connect planners and the
smooth_path post-processing pass.

Modelling conventions:
* The Rust code is generic over a scalar type `N: Float`.  The embedding is
  generic over a `LinearOrderedField F` together with an explicit
  `sqrtF : F → F` standing for `Float::sqrt`.  Theorems that need genuine
  square-root facts, and all concrete executions, are stated at `F := ℝ`,
  `sqrtF := Real.sqrt` (the idealisation of floating point the spec's
  "within floating tolerance" phrasing refers to); purely structural
  theorems are stated for every `F` and every `sqrtF`.
* A point is a `List F`; `squared_euclidean` is kdtree's distance function
  (a zip of squared coordinate differences).
* The `Tree` owns both a `kdtree` and a vertex store which the source always
  mutates together (`add_vertex` pushes to both), so the embedding keeps only
  the vertex store and answers spatial queries by scanning it:
  `get_nearest_index` models `kdtree.nearest(q, 1, &squared_euclidean)`
  (the index of smallest squared distance, first insertion on ties) and
  `get_nearest_indices_in_radius` models
  `kdtree.within(q, radius, &squared_euclidean)` (all indices whose
  squared-euclidean value to the query is at most `radius` — the crate
  filters by the supplied distance function, so `radius` is in squared
  units here).
* Rust loops that are not structurally bounded are given explicit fuel and
  return `Option`, `none` marking an execution the Rust program never
  completes (or a panic): `connect` loops until Reached/Trapped, and
  `get_until_root` is a `while let` parent walk.  For `get_until_root` the
  callers pass `vertices.length` as fuel, which is exact: an acyclic
  parent walk visits pairwise distinct vertices and hence finishes within
  `vertices.length` steps, while a cyclic walk makes the Rust loop run
  forever and the model return `none`.
* The hidden randomness (`rand::random` goal bias in rrt_star_connect, the
  `thread_rng` index draws in smooth_path) is passed in as explicit oracle
  streams; the caller-supplied sampler `FR: Fn() -> Vec<N>` becomes a stream
  `Nat → List F` consumed one element per call.
* `assert!(extend_length > zero)` and `assert_eq!(start.len(), goal.len())`
  are modelled as hypotheses `0 < L` resp. `start.length = goal.length` on
  the theorems.
-/

set_option linter.unusedSectionVars false
set_option linter.unusedVariables false

namespace Rrt

/-- Source `enum ExtendStatus`: outcome of one extension step. -/
inductive ExtendStatus where
  | Reached : Nat → ExtendStatus
  | Advanced : Nat → ExtendStatus
  | Trapped : ExtendStatus
deriving DecidableEq

/-- Source `struct Node<T>`: vertex data plus optional parent index. -/
structure Node (F : Type) where
  parent_index : Option Nat
  data : List F
deriving DecidableEq

/-- Source `struct Tree<N>`: vertex store plus name label ("start"/"goal"/
"rrt_star").  The kdtree field is represented by the vertex store itself
(they are always mutated together, see module comment). -/
structure Tree (F : Type) where
  vertices : List (Node F)
  name : String
deriving DecidableEq

variable {F : Type} [LinearOrderedField F]

/-- kdtree's `squared_euclidean(a, b)`: sum of squared coordinate
differences over the zipped coordinates. -/
def squared_euclidean (a b : List F) : F :=
  (List.zipWith (fun x y => (x - y) * (x - y)) a b).sum

/-- Out-of-range placeholder vertex (in-range accesses are guaranteed by the
invariants carried in the theorems; Rust would panic on an out-of-range
index). -/
def defaultNode : Node F := ⟨none, []⟩

/-- The point stored at vertex `i`. -/
def dataD (t : Tree F) (i : Nat) : List F := (t.vertices.getD i defaultNode).data

/-- The parent index stored at vertex `i` (`none` for roots and for
out-of-range `i`). -/
def parentD (t : Tree F) (i : Nat) : Option Nat :=
  (t.vertices.getD i defaultNode).parent_index

/-- Source `Tree::add_vertex`: append a parentless vertex holding `q`; its
index is the previous `vertices.len()`. -/
def add_vertex (t : Tree F) (q : List F) : Tree F :=
  { t with vertices := t.vertices ++ [⟨none, q⟩] }

/-- Source `Tree::add_edge(q1_index, q2_index)`: set `q2`'s parent field to
`q1_index`, overwriting any previous parent.  (`List.set` out of range is a
no-op; Rust would panic there.) -/
def add_edge (t : Tree F) (q1_index q2_index : Nat) : Tree F :=
  { t with vertices := t.vertices.set q2_index ⟨some q1_index, dataD t q2_index⟩ }

/-- Scan for the index of the vertex with smallest `squared_euclidean` to
`q`; first insertion wins ties.  `i` is the index of the head of the
remaining list, `besti`/`bestd` the best index and distance so far. -/
def nearestAux (q : List F) : List (Node F) → Nat → Nat → F → Nat
  | [], _, besti, _ => besti
  | v :: rest, i, besti, bestd =>
    if squared_euclidean v.data q < bestd then
      nearestAux q rest (i + 1) i (squared_euclidean v.data q)
    else
      nearestAux q rest (i + 1) besti bestd

/-- Source `Tree::get_nearest_index`, i.e.
`kdtree.nearest(q, 1, &squared_euclidean)`: the index minimising squared
distance to `q`.  (Meaningless on an empty tree, where Rust unwraps a panic;
theorems assume nonemptiness.) -/
def get_nearest_index (t : Tree F) (q : List F) : Nat :=
  match t.vertices with
  | [] => 0
  | v :: rest => nearestAux q rest 1 0 (squared_euclidean v.data q)

/-- Source `Tree::get_nearest_indices_in_radius`, i.e.
`kdtree.within(q, radius, &squared_euclidean)`: all indices whose
squared-euclidean distance to `q` is at most `radius` (the crate filters by
the supplied distance function, inclusive boundary). -/
def get_nearest_indices_in_radius (t : Tree F) (q : List F) (radius : F) : List Nat :=
  (List.range t.vertices.length).filter
    (fun i => squared_euclidean (dataD t i) q ≤ radius)

/-- The interpolation step shared by `extend`, `extend_rewire` and
`smooth_path`: `near + (target - near) * extend_length / diff_dist`
coordinate-wise. -/
def steer (extend_length diff_dist : F) (near target : List F) : List F :=
  List.zipWith (fun n t => n + (t - n) * extend_length / diff_dist) near target

/-- Source `Tree::extend`: one bounded growth step toward `q_target`.
Returns the status together with the mutated tree. -/
def extend (sqrtF : F → F) (t : Tree F) (q_target : List F) (extend_length : F)
    (is_free : List F → Bool) : ExtendStatus × Tree F :=
  let nearest_index := get_nearest_index t q_target
  let nearest_q := dataD t nearest_index
  let diff_dist := sqrtF (squared_euclidean q_target nearest_q)
  let q_new :=
    if diff_dist < extend_length then q_target
    else steer extend_length diff_dist nearest_q q_target
  if is_free q_new then
    let new_index := t.vertices.length
    let t1 := add_edge (add_vertex t q_new) nearest_index new_index
    if sqrtF (squared_euclidean q_new q_target) < extend_length then
      (ExtendStatus.Reached new_index, t1)
    else
      (ExtendStatus.Advanced new_index, t1)
  else (ExtendStatus.Trapped, t)

/-- The candidate point computed by steps 1–2 of both `extend` and
`extend_rewire` (a name for the common subexpression, for the theorems):
the target itself when the nearest vertex is within `extend_length` of it,
otherwise the interpolated point `extend_length` along the segment from the
nearest vertex toward the target. -/
def candidate (sqrtF : F → F) (t : Tree F) (q_target : List F) (extend_length : F) :
    List F :=
  let nearest_q := dataD t (get_nearest_index t q_target)
  let diff_dist := sqrtF (squared_euclidean q_target nearest_q)
  if diff_dist < extend_length then q_target
  else steer extend_length diff_dist nearest_q q_target

/-- Body of `extend_rewire`'s rewiring `for` loop: if the neighbor has a
parent and the new point is strictly closer to the neighbor than its current
parent is, reparent the neighbor to the new vertex. -/
def rewireStep (q_new : List F) (new_index : Nat) (acc : Tree F) (neighbor_index : Nat) :
    Tree F :=
  match parentD acc neighbor_index with
  | none => acc
  | some parent_index =>
    if squared_euclidean q_new (dataD acc neighbor_index) <
        squared_euclidean (dataD acc parent_index) (dataD acc neighbor_index) then
      add_edge acc new_index neighbor_index
    else acc

/-- Source `Tree::extend_rewire`: as `extend`, then a single local rewiring
pass over the radius query of the *already updated* tree, and a Reached test
that compares the squared distance against `extend_length`. -/
def extend_rewire (sqrtF : F → F) (t : Tree F) (q_target : List F) (extend_length : F)
    (is_free : List F → Bool) : ExtendStatus × Tree F :=
  let nearest_index := get_nearest_index t q_target
  let nearest_q := dataD t nearest_index
  let diff_dist := sqrtF (squared_euclidean q_target nearest_q)
  let q_new :=
    if diff_dist < extend_length then q_target
    else steer extend_length diff_dist nearest_q q_target
  if is_free q_new then
    let new_index := t.vertices.length
    let t1 := add_edge (add_vertex t q_new) nearest_index new_index
    let neighbors := get_nearest_indices_in_radius t1 q_new extend_length
    let t2 := neighbors.foldl (rewireStep q_new new_index) t1
    if squared_euclidean q_new q_target < extend_length then
      (ExtendStatus.Reached new_index, t2)
    else
      (ExtendStatus.Advanced new_index, t2)
  else (ExtendStatus.Trapped, t)

/-- Source `Tree::connect`: repeat `extend` toward the same target until it
returns Trapped or Reached (Advanced is consumed silently).  The Rust loop
has no iteration bound; `fuel` bounds the model and `none` marks fuel
exhaustion (the termination theorem shows sufficient fuel always exists). -/
def connectFuel (sqrtF : F → F) (q_target : List F) (extend_length : F)
    (is_free : List F → Bool) : Nat → Tree F → Option (ExtendStatus × Tree F)
  | 0, _ => none
  | fuel + 1, t =>
    match extend sqrtF t q_target extend_length is_free with
    | (ExtendStatus.Advanced _, t2) => connectFuel sqrtF q_target extend_length is_free fuel t2
    | (s, t2) => some (s, t2)

/-- Source `Tree::get_until_root`: walk parent links starting from `index`'s
parent, collecting each visited vertex's point, until a parentless vertex is
reached (the starting vertex itself is *not* included).  The Rust `while
let` loop runs forever on a parent cycle; `none` models that (callers pass
`vertices.length` as fuel, which suffices exactly for acyclic walks). -/
def get_until_root (t : Tree F) : Nat → Nat → Option (List (List F))
  | cur, 0 =>
    match parentD t cur with
    | none => some []
    | some _ => none
  | cur, fuel + 1 =>
    match parentD t cur with
    | none => some []
    | some parent_index =>
      Option.map (fun l => dataD t parent_index :: l) (get_until_root t parent_index fuel)

/-- Loop body of `dual_rrt_connect`: `rem` remaining iterations, `k` the
next sampler call index, `tree_a`/`tree_b` the two trees (swapped after
every iteration).  `cfuel` is the fuel given to each inner `connect` call;
`none` covers both budget exhaustion (Rust's `Err("failed")`) and a
connect call not completing within `cfuel`. -/
def dualLoop (sqrtF : F → F) (is_free : List F → Bool) (random_sample : Nat → List F)
    (extend_length : F) (cfuel : Nat) :
    Nat → Nat → Tree F → Tree F → Option (List (List F))
  | 0, _, _, _ => none
  | rem + 1, k, tree_a, tree_b =>
    let q_rand := random_sample k
    match extend sqrtF tree_a q_rand extend_length is_free with
    | (ExtendStatus.Trapped, ta2) =>
      dualLoop sqrtF is_free random_sample extend_length cfuel rem (k + 1) tree_b ta2
    | (ExtendStatus.Advanced new_index, ta2) | (ExtendStatus.Reached new_index, ta2) =>
      let q_new := dataD ta2 new_index
      match connectFuel sqrtF q_new extend_length is_free cfuel tree_b with
      | some (ExtendStatus.Reached reach_index, tb2) =>
        match get_until_root ta2 new_index ta2.vertices.length,
              get_until_root tb2 reach_index tb2.vertices.length with
        | some a_all, some b_all =>
          let joined := a_all.reverse ++ b_all
          some (if tb2.name = "start" then joined.reverse else joined)
        | _, _ => none
      | some (_, tb2) =>
        dualLoop sqrtF is_free random_sample extend_length cfuel rem (k + 1) tb2 ta2
      | none => none

/-- Source `dual_rrt_connect`: two trees rooted at `start` ("start") and
`goal` ("goal"), roles swapped every iteration. -/
def dual_rrt_connect (sqrtF : F → F) (start goal : List F) (is_free : List F → Bool)
    (random_sample : Nat → List F) (extend_length : F) (num_max_try cfuel : Nat) :
    Option (List (List F)) :=
  let tree_a : Tree F := ⟨[⟨none, start⟩], "start"⟩
  let tree_b : Tree F := ⟨[⟨none, goal⟩], "goal"⟩
  dualLoop sqrtF is_free random_sample extend_length cfuel num_max_try 0 tree_a tree_b

/-- Loop body of `rrt_star_connect`.  `iter` indexes the hidden
`rand::random::<f64>() < 0.1` goal-bias draws (`goal_bias` stream), `sIdx`
the sampler calls (the sampler is only called on non-biased iterations).
On budget exhaustion, walk to the first vertex whose point equals the best
seen (`closest`); `none` models the panics/non-termination cases. -/
def rrtStarLoop [DecidableEq F] (sqrtF : F → F) (goal : List F) (is_free : List F → Bool)
    (random_sample : Nat → List F) (goal_bias : Nat → Bool) (extend_length : F) :
    Nat → Nat → Nat → Tree F → List F → F → Option (List (List F))
  | 0, _, _, t, closest_to_goal, _ =>
    match t.vertices.findIdx? (fun v => decide (v.data = closest_to_goal)) with
    | some index_of_closest => get_until_root t index_of_closest t.vertices.length
    | none => none
  | rem + 1, iter, sIdx, t, closest_to_goal, min_dist_to_goal =>
    let q_rand := if goal_bias iter then goal else random_sample sIdx
    let sIdx2 := if goal_bias iter then sIdx else sIdx + 1
    match extend_rewire sqrtF t q_rand extend_length is_free with
    | (ExtendStatus.Trapped, t2) =>
      rrtStarLoop sqrtF goal is_free random_sample goal_bias extend_length
        rem (iter + 1) sIdx2 t2 closest_to_goal min_dist_to_goal
    | (ExtendStatus.Advanced index, t2) | (ExtendStatus.Reached index, t2) =>
      let new_point := dataD t2 index
      let dist_to_goal := sqrtF (squared_euclidean goal new_point)
      let closest2 := if dist_to_goal < min_dist_to_goal then new_point else closest_to_goal
      let minDist2 := if dist_to_goal < min_dist_to_goal then dist_to_goal else min_dist_to_goal
      if dist_to_goal < extend_length ∧ is_free goal = true then
        let t3 := add_vertex t2 goal
        let t4 := add_edge t3 index (t3.vertices.length - 1)
        get_until_root t4 (t4.vertices.length - 1) t4.vertices.length
      else
        rrtStarLoop sqrtF goal is_free random_sample goal_bias extend_length
          rem (iter + 1) sIdx2 t2 closest2 minDist2

/-- Source `rrt_star_connect`: single tree rooted at `start`, goal-biased
sampling, `extend_rewire` growth, direct goal connection when close, else
path to the closest seen point after the budget. -/
def rrt_star_connect [DecidableEq F] (sqrtF : F → F) (start goal : List F)
    (is_free : List F → Bool) (random_sample : Nat → List F) (goal_bias : Nat → Bool)
    (extend_length : F) (num_max_try : Nat) : Option (List (List F)) :=
  let t : Tree F := ⟨[⟨none, start⟩], "rrt_star"⟩
  rrtStarLoop sqrtF goal is_free random_sample goal_bias extend_length
    num_max_try 0 0 t start (sqrtF (squared_euclidean goal start))

/-- Inner `while is_searching` loop of `smooth_path`: step from `base`
toward `point2` in `extend_length` increments, checking feasibility;
`true` means the shortcut reached `point2` (remaining distance below
`extend_length`), `false` that a step was infeasible (or fuel ran out —
the loop provably needs only finitely many steps). -/
def smoothInner (sqrtF : F → F) (is_free : List F → Bool) (extend_length : F)
    (point2 : List F) : Nat → List F → Bool
  | 0, _ => false
  | fuel + 1, base_point =>
    let diff_dist := sqrtF (squared_euclidean base_point point2)
    if diff_dist < extend_length then true
    else
      let check_point := steer extend_length diff_dist base_point point2
      if is_free check_point then
        smoothInner sqrtF is_free extend_length point2 fuel check_point
      else false

/-- `k` repetitions of `path.remove(i)` (source removes
`path[ind1+1] ..= path[ind2-1]` by repeatedly removing at `ind1+1`). -/
def eraseReps {α : Type} (l : List α) (i : Nat) : Nat → List α
  | 0 => l
  | k + 1 => eraseReps (l.eraseIdx i) i k

/-- Outer loop of `smooth_path`: each attempt draws `ind1` uniformly from
`[0, len-2)` and `ind2` from `[ind1+2, len)`; the `oracle` stream supplies
the hidden `thread_rng` draws (reduced into range by `%`, which reaches
every value a `Uniform` sample can take).  Returns early when the path
shrinks to exactly 2 points. -/
def smoothLoop (sqrtF : F → F) (is_free : List F → Bool) (extend_length : F)
    (oracle : Nat → Nat × Nat) (ifuel : Nat) :
    Nat → Nat → List (List F) → List (List F)
  | 0, _, path => path
  | tries + 1, k, path =>
    let r := oracle k
    let ind1 := r.1 % (path.length - 2)
    let ind2 := ind1 + 2 + r.2 % (path.length - (ind1 + 2))
    let base_point := path.getD ind1 []
    let point2 := path.getD ind2 []
    if smoothInner sqrtF is_free extend_length point2 ifuel base_point then
      let path2 := eraseReps path (ind1 + 1) (ind2 - ind1 - 1)
      if path2.length = 2 then path2
      else smoothLoop sqrtF is_free extend_length oracle ifuel tries (k + 1) path2
    else smoothLoop sqrtF is_free extend_length oracle ifuel tries (k + 1) path

/-- Source `smooth_path`: paths shorter than 3 points are returned
unmodified; otherwise `num_max_try` randomized shortcut attempts. -/
def smooth_path (sqrtF : F → F) (path : List (List F)) (is_free : List F → Bool)
    (extend_length : F) (num_max_try : Nat) (oracle : Nat → Nat × Nat) (ifuel : Nat) :
    List (List F) :=
  if path.length < 3 then path
  else smoothLoop sqrtF is_free extend_length oracle ifuel num_max_try 0 path

/-!
## Invariants (predicate definitions used by the theorems)
-/

/-- Invariant maintained by `extend`-only growth: the tree is nonempty,
every parent link points to a strictly earlier-inserted vertex (hence the
parent graph is acyclic), and every parentless (root) vertex holds the
root point. -/
structure StructInv (t : Tree F) (rootPt : List F) : Prop where
  ne : t.vertices ≠ []
  parent_lt : ∀ i p, parentD t i = some p → p < i
  root_data : ∀ i, i < t.vertices.length → parentD t i = none → dataD t i = rootPt

/-- Invariant of the `dual_rrt_connect` loop: the two trees are the
start-rooted tree named "start" and the goal-rooted tree named "goal", in
one of the two role assignments produced by the per-iteration swaps. -/
def DualInv (start goal : List F) (ta tb : Tree F) : Prop :=
  (ta.name = "start" ∧ tb.name = "goal" ∧ StructInv ta start ∧ StructInv tb goal) ∨
  (ta.name = "goal" ∧ tb.name = "start" ∧ StructInv ta goal ∧ StructInv tb start)

/-- Metric invariant used for path validity over the reals: every tree edge
has Euclidean length at most `L`, and every vertex that has a parent (i.e.
every non-root vertex) was feasibility-checked. -/
structure MetricInv (t : Tree ℝ) (L : ℝ) (free : List ℝ → Bool) : Prop where
  edge_le : ∀ i p, parentD t i = some p →
    Real.sqrt (squared_euclidean (dataD t p) (dataD t i)) ≤ L
  free_of_parent : ∀ i, parentD t i ≠ none → free (dataD t i) = true

/-!
## Structural facts about the tree mutations
-/

theorem vertices_length_add_vertex (t : Tree F) (q : List F) :
    (add_vertex t q).vertices.length = t.vertices.length + 1 := by
  simp [add_vertex]

theorem vertices_length_add_edge (t : Tree F) (a b : Nat) :
    (add_edge t a b).vertices.length = t.vertices.length := by
  simp [add_edge]

theorem name_add_vertex (t : Tree F) (q : List F) : (add_vertex t q).name = t.name := rfl

theorem name_add_edge (t : Tree F) (a b : Nat) : (add_edge t a b).name = t.name := rfl

theorem dataD_add_vertex (t : Tree F) (q : List F) (i : Nat) :
    dataD (add_vertex t q) i = if i = t.vertices.length then q else dataD t i := by
  unfold dataD add_vertex
  rcases lt_trichotomy i t.vertices.length with h | h | h
  · rw [if_neg h.ne, List.getD_eq_getElem?_getD, List.getD_eq_getElem?_getD,
      List.getElem?_append_left h]
  · subst h
    rw [if_pos rfl, List.getD_eq_getElem?_getD, List.getElem?_concat_length]
    rfl
  · rw [if_neg h.ne', List.getD_eq_getElem?_getD, List.getD_eq_getElem?_getD,
      List.getElem?_eq_none (by simp; omega), List.getElem?_eq_none (by omega)]

theorem parentD_add_vertex (t : Tree F) (q : List F) (i : Nat) :
    parentD (add_vertex t q) i = parentD t i := by
  unfold parentD add_vertex
  rcases lt_trichotomy i t.vertices.length with h | h | h
  · rw [List.getD_eq_getElem?_getD, List.getD_eq_getElem?_getD, List.getElem?_append_left h]
  · subst h
    rw [List.getD_eq_getElem?_getD, List.getElem?_concat_length,
      List.getD_eq_getElem?_getD, List.getElem?_eq_none (by omega)]
    rfl
  · rw [List.getD_eq_getElem?_getD, List.getD_eq_getElem?_getD,
      List.getElem?_eq_none (by simp; omega), List.getElem?_eq_none (by omega)]

theorem dataD_add_edge (t : Tree F) (a b i : Nat) :
    dataD (add_edge t a b) i = dataD t i := by
  unfold dataD add_edge
  by_cases hib : b = i
  · subst hib
    by_cases hb : b < t.vertices.length
    · rw [List.getD_eq_getElem?_getD, List.getElem?_set_self hb]
      rfl
    · rw [List.getD_eq_getElem?_getD, List.getD_eq_getElem?_getD, List.getElem?_set,
        if_pos rfl, if_neg hb, List.getElem?_eq_none (by omega)]
  · rw [List.getD_eq_getElem?_getD, List.getD_eq_getElem?_getD, List.getElem?_set_ne hib]

theorem parentD_add_edge (t : Tree F) (a b i : Nat) :
    parentD (add_edge t a b) i =
      if b = i ∧ b < t.vertices.length then some a else parentD t i := by
  unfold parentD add_edge
  by_cases hib : b = i
  · subst hib
    by_cases hb : b < t.vertices.length
    · rw [if_pos ⟨rfl, hb⟩, List.getD_eq_getElem?_getD, List.getElem?_set_self hb]
      rfl
    · rw [if_neg (fun h => hb h.2), List.getD_eq_getElem?_getD, List.getD_eq_getElem?_getD,
        List.getElem?_set, if_pos rfl, if_neg hb, List.getElem?_eq_none (by omega)]
  · rw [if_neg (fun h => hib h.1), List.getD_eq_getElem?_getD, List.getD_eq_getElem?_getD,
      List.getElem?_set_ne hib]

/-- `dataD` of the insert-then-link composite used by `extend` and
`extend_rewire`. -/
theorem dataD_insertLinked (t : Tree F) (q : List F) (ni i : Nat) :
    dataD (add_edge (add_vertex t q) ni t.vertices.length) i =
      if i = t.vertices.length then q else dataD t i := by
  rw [dataD_add_edge, dataD_add_vertex]

/-- `parentD` of the insert-then-link composite used by `extend` and
`extend_rewire`: the new vertex gets `ni` as parent, the rest is untouched. -/
theorem parentD_insertLinked (t : Tree F) (q : List F) (ni i : Nat) :
    parentD (add_edge (add_vertex t q) ni t.vertices.length) i =
      if i = t.vertices.length then some ni else parentD t i := by
  rw [parentD_add_edge]
  by_cases h : i = t.vertices.length
  · subst h
    rw [if_pos ⟨rfl, by simp [vertices_length_add_vertex]⟩, if_pos rfl]
  · rw [if_neg (fun hh : _ ∧ _ => h hh.1.symm), if_neg h, parentD_add_vertex]

/-!
## Nearest-index specification
-/

theorem nearestAux_lt (q : List F) :
    ∀ (rest : List (Node F)) (i besti : Nat) (bestd : F), besti < i →
      nearestAux q rest i besti bestd < i + rest.length := by
  intro rest
  induction rest with
  | nil => intro i besti bestd h; simpa [nearestAux] using h
  | cons v rest ih =>
    intro i besti bestd h
    unfold nearestAux
    by_cases hv : squared_euclidean v.data q < bestd
    · rw [if_pos hv]
      have := ih (i + 1) i (squared_euclidean v.data q) (Nat.lt_succ_self i)
      simpa [Nat.add_assoc, Nat.add_comm, Nat.add_left_comm] using this
    · rw [if_neg hv]
      have := ih (i + 1) besti bestd (Nat.lt_succ_of_lt h)
      simpa [Nat.add_assoc, Nat.add_comm, Nat.add_left_comm] using this

theorem nearestAux_min (q : List F) (vs : List (Node F)) :
    ∀ (rest : List (Node F)) (i besti : Nat) (bestd : F),
      rest = vs.drop i →
      squared_euclidean (vs.getD besti defaultNode).data q = bestd →
      squared_euclidean (vs.getD (nearestAux q rest i besti bestd) defaultNode).data q ≤ bestd ∧
      ∀ j, i ≤ j → j < vs.length →
        squared_euclidean (vs.getD (nearestAux q rest i besti bestd) defaultNode).data q ≤
          squared_euclidean (vs.getD j defaultNode).data q := by
  intro rest
  induction rest with
  | nil =>
    intro i besti bestd hdrop hbest
    have hlen : vs.length ≤ i := by
      by_contra hlt
      push_neg at hlt
      have := congrArg List.length hdrop
      simp [List.length_drop] at this
      omega
    constructor
    · simpa [nearestAux] using le_of_eq hbest
    · intro j hij hj; omega
  | cons v rest ih =>
    intro i besti bestd hdrop hbest
    have hi : vs[i]? = some v := by
      have h0 : (vs.drop i)[0]? = some v := by rw [← hdrop]; simp
      rwa [List.getElem?_drop, Nat.add_zero] at h0
    have hrest : rest = vs.drop (i + 1) := by
      have h1 : (vs.drop i).tail = vs.drop (i + 1) := List.tail_drop vs i
      rw [← h1, ← hdrop, List.tail_cons]
    have hvi : (vs.getD i defaultNode).data = v.data := by
      rw [List.getD_eq_getElem?_getD, hi]
      rfl
    unfold nearestAux
    by_cases hv : squared_euclidean v.data q < bestd
    · rw [if_pos hv]
      obtain ⟨h1, h2⟩ := ih (i + 1) i (squared_euclidean v.data q) hrest (by rw [hvi])
      refine ⟨le_of_lt (lt_of_le_of_lt h1 hv), ?_⟩
      intro j hij hj
      rcases Nat.eq_or_lt_of_le hij with rfl | hlt
      · rw [hvi]; exact h1
      · exact h2 j hlt hj
    · rw [if_neg hv]
      push_neg at hv
      obtain ⟨h1, h2⟩ := ih (i + 1) besti bestd hrest hbest
      refine ⟨h1, ?_⟩
      intro j hij hj
      rcases Nat.eq_or_lt_of_le hij with rfl | hlt
      · rw [hvi]; exact le_trans h1 hv
      · exact h2 j hlt hj

/-- On a nonempty tree the nearest index is in range. -/
theorem get_nearest_index_lt (t : Tree F) (q : List F) (h : t.vertices ≠ []) :
    get_nearest_index t q < t.vertices.length := by
  unfold get_nearest_index
  match hv : t.vertices with
  | [] => exact absurd hv h
  | v :: rest =>
    have := nearestAux_lt q rest 1 0 (squared_euclidean v.data q) Nat.one_pos
    simpa [Nat.add_comm] using this

/-- The nearest index minimises the squared distance to the query over all
stored vertices (soundness of the model of `kdtree.nearest(q, 1)`). -/
theorem get_nearest_index_min (t : Tree F) (q : List F) :
    ∀ j, j < t.vertices.length →
      squared_euclidean (dataD t (get_nearest_index t q)) q ≤
        squared_euclidean (dataD t j) q := by
  intro j hj
  unfold get_nearest_index dataD
  match hv : t.vertices with
  | [] => simp [hv] at hj
  | v :: rest =>
    have hdrop : rest = (v :: rest).drop 1 := rfl
    have hbest : squared_euclidean ((v :: rest).getD 0 defaultNode).data q =
        squared_euclidean v.data q := rfl
    obtain ⟨h1, h2⟩ := nearestAux_min q (v :: rest) rest 1 0 (squared_euclidean v.data q)
      hdrop hbest
    rw [hv] at hj
    rcases Nat.eq_zero_or_pos j with rfl | hpos
    · exact le_trans h1 (le_of_eq hbest.symm)
    · exact h2 j hpos hj

/-!
## Algebra of `squared_euclidean` and `steer`
-/

theorem squared_euclidean_nonneg : ∀ a b : List F, 0 ≤ squared_euclidean a b := by
  intro a
  induction a with
  | nil => intro b; simp [squared_euclidean]
  | cons x a ih =>
    intro b
    cases b with
    | nil => simp [squared_euclidean]
    | cons y b =>
      have hx : 0 ≤ (x - y) * (x - y) := mul_self_nonneg _
      have hrec := ih b
      simp only [squared_euclidean, List.zipWith_cons_cons, List.sum_cons] at *
      exact add_nonneg hx hrec

theorem squared_euclidean_comm : ∀ a b : List F, squared_euclidean a b = squared_euclidean b a := by
  intro a
  induction a with
  | nil => intro b; cases b <;> simp [squared_euclidean]
  | cons x a ih =>
    intro b
    cases b with
    | nil => simp [squared_euclidean]
    | cons y b =>
      simp only [squared_euclidean, List.zipWith_cons_cons, List.sum_cons] at *
      rw [ih b]
      ring_nf

/-- Squared distance from the start point of a `steer` step to its result. -/
theorem squared_euclidean_steer_from (L D : F) :
    ∀ a b : List F,
      squared_euclidean a (steer L D a b) = L / D * (L / D) * squared_euclidean a b := by
  intro a
  induction a with
  | nil => intro b; simp [squared_euclidean, steer]
  | cons x a ih =>
    intro b
    cases b with
    | nil => simp [squared_euclidean, steer]
    | cons y b =>
      simp only [squared_euclidean, steer, List.zipWith_cons_cons, List.sum_cons] at *
      rw [ih b]
      ring

/-- Squared distance from the result of a `steer` step to the target. -/
theorem squared_euclidean_steer_to (L D : F) :
    ∀ a b : List F,
      squared_euclidean (steer L D a b) b =
        (1 - L / D) * (1 - L / D) * squared_euclidean a b := by
  intro a
  induction a with
  | nil => intro b; simp [squared_euclidean, steer]
  | cons x a ih =>
    intro b
    cases b with
    | nil => simp [squared_euclidean, steer]
    | cons y b =>
      simp only [squared_euclidean, steer, List.zipWith_cons_cons, List.sum_cons] at *
      rw [ih b]
      ring

/-- Over the reals, a `steer` step of length `L` lands exactly at Euclidean
distance `L` from its start point (`D` being the true distance from `b` to
`a`, at least `L`). -/
theorem sqrt_squared_euclidean_steer_from (a b : List ℝ) (L : ℝ) (hL : 0 < L)
    (hD : L ≤ Real.sqrt (squared_euclidean b a)) :
    Real.sqrt (squared_euclidean a (steer L (Real.sqrt (squared_euclidean b a)) a b)) = L := by
  have hS : 0 ≤ squared_euclidean b a := squared_euclidean_nonneg b a
  have hDpos : 0 < Real.sqrt (squared_euclidean b a) := lt_of_lt_of_le hL hD
  have hDD : Real.sqrt (squared_euclidean b a) * Real.sqrt (squared_euclidean b a) =
      squared_euclidean b a := Real.mul_self_sqrt hS
  have hSpos : 0 < squared_euclidean b a := by rw [← hDD]; exact mul_pos hDpos hDpos
  rw [squared_euclidean_steer_from, squared_euclidean_comm a b]
  have hval : L / Real.sqrt (squared_euclidean b a) * (L / Real.sqrt (squared_euclidean b a)) *
      squared_euclidean b a = L * L := by
    have hexp : L / Real.sqrt (squared_euclidean b a) *
          (L / Real.sqrt (squared_euclidean b a)) * squared_euclidean b a =
        L * L * (squared_euclidean b a /
          (Real.sqrt (squared_euclidean b a) * Real.sqrt (squared_euclidean b a))) := by
      ring
    rw [hexp, hDD, div_self hSpos.ne', mul_one]
  rw [hval, Real.sqrt_mul_self hL.le]

/-- Over the reals, a `steer` step of length `L` lands exactly `L` closer to
the target: its distance to `b` is `D - L` (with `D` the distance from `b`
to the start point, at least `L`). -/
theorem sqrt_squared_euclidean_steer_to (a b : List ℝ) (L : ℝ) (hL : 0 < L)
    (hD : L ≤ Real.sqrt (squared_euclidean b a)) :
    Real.sqrt (squared_euclidean (steer L (Real.sqrt (squared_euclidean b a)) a b) b) =
      Real.sqrt (squared_euclidean b a) - L := by
  have hS : 0 ≤ squared_euclidean b a := squared_euclidean_nonneg b a
  have hDpos : 0 < Real.sqrt (squared_euclidean b a) := lt_of_lt_of_le hL hD
  have hDD : Real.sqrt (squared_euclidean b a) * Real.sqrt (squared_euclidean b a) =
      squared_euclidean b a := Real.mul_self_sqrt hS
  have hSpos : 0 < squared_euclidean b a := by rw [← hDD]; exact mul_pos hDpos hDpos
  rw [squared_euclidean_steer_to, squared_euclidean_comm a b]
  have hval : (1 - L / Real.sqrt (squared_euclidean b a)) *
        (1 - L / Real.sqrt (squared_euclidean b a)) * squared_euclidean b a =
      (Real.sqrt (squared_euclidean b a) - L) * (Real.sqrt (squared_euclidean b a) - L) := by
    have hexp : (1 - L / Real.sqrt (squared_euclidean b a)) *
          (1 - L / Real.sqrt (squared_euclidean b a)) * squared_euclidean b a =
        (Real.sqrt (squared_euclidean b a) - L) * (Real.sqrt (squared_euclidean b a) - L) *
          (squared_euclidean b a /
            (Real.sqrt (squared_euclidean b a) * Real.sqrt (squared_euclidean b a))) := by
      field_simp
    rw [hexp, hDD, div_self hSpos.ne', mul_one]
  rw [hval, Real.sqrt_mul_self (by linarith)]

/-!
## Case analyses of the extension primitives
-/

/-- `extend`, fully characterised: the Trapped case leaves the tree
untouched, the free case appends the candidate with the nearest vertex as
parent and picks Reached or Advanced by the unsquared distance test. -/
theorem extend_cases (sqrtF : F → F) (t : Tree F) (q : List F) (L : F)
    (free : List F → Bool) :
    (free (candidate sqrtF t q L) = false ∧
        extend sqrtF t q L free = (ExtendStatus.Trapped, t)) ∨
    (free (candidate sqrtF t q L) = true ∧
      (extend sqrtF t q L free).2 =
        add_edge (add_vertex t (candidate sqrtF t q L)) (get_nearest_index t q)
          t.vertices.length ∧
      (extend sqrtF t q L free).1 =
        (if sqrtF (squared_euclidean (candidate sqrtF t q L) q) < L then
          ExtendStatus.Reached t.vertices.length
        else ExtendStatus.Advanced t.vertices.length)) := by
  by_cases hf : free (candidate sqrtF t q L) = true
  · right
    refine ⟨hf, ?_, ?_⟩
    · simp only [extend, candidate] at hf ⊢
      rw [if_pos hf]
      split <;> split <;> rfl
    · simp only [extend, candidate] at hf ⊢
      rw [if_pos hf]
      split <;> split <;> rfl
  · left
    have hf2 : free (candidate sqrtF t q L) = false := by
      simpa using hf
    refine ⟨hf2, ?_⟩
    simp only [extend, candidate] at hf2 ⊢
    rw [if_neg (by simp [hf2])]

/-- `extend_rewire`, characterised the same way: identical candidate and
insertion, then the rewiring fold, and a Reached test on the *squared*
distance. -/
theorem extend_rewire_cases (sqrtF : F → F) (t : Tree F) (q : List F) (L : F)
    (free : List F → Bool) :
    (free (candidate sqrtF t q L) = false ∧
        extend_rewire sqrtF t q L free = (ExtendStatus.Trapped, t)) ∨
    (free (candidate sqrtF t q L) = true ∧
      (extend_rewire sqrtF t q L free).2 =
        (get_nearest_indices_in_radius
            (add_edge (add_vertex t (candidate sqrtF t q L)) (get_nearest_index t q)
              t.vertices.length)
            (candidate sqrtF t q L) L).foldl
          (rewireStep (candidate sqrtF t q L) t.vertices.length)
          (add_edge (add_vertex t (candidate sqrtF t q L)) (get_nearest_index t q)
            t.vertices.length) ∧
      (extend_rewire sqrtF t q L free).1 =
        (if squared_euclidean (candidate sqrtF t q L) q < L then
          ExtendStatus.Reached t.vertices.length
        else ExtendStatus.Advanced t.vertices.length)) := by
  by_cases hf : free (candidate sqrtF t q L) = true
  · right
    refine ⟨hf, ?_, ?_⟩
    · simp only [extend_rewire, candidate] at hf ⊢
      rw [if_pos hf]
      split <;> split <;> rfl
    · simp only [extend_rewire, candidate] at hf ⊢
      rw [if_pos hf]
      split <;> split <;> rfl
  · left
    have hf2 : free (candidate sqrtF t q L) = false := by
      simpa using hf
    refine ⟨hf2, ?_⟩
    simp only [extend_rewire, candidate] at hf2 ⊢
    rw [if_neg (by simp [hf2])]

/-!
## The rewiring fold only touches parent fields
-/

theorem dataD_rewireStep (qn : List F) (ni : Nat) (acc : Tree F) (j i : Nat) :
    dataD (rewireStep qn ni acc j) i = dataD acc i := by
  unfold rewireStep
  split
  · rfl
  · split
    · rw [dataD_add_edge]
    · rfl

theorem dataD_rewireFold (qn : List F) (ni : Nat) :
    ∀ (ns : List Nat) (acc : Tree F) (i : Nat),
      dataD (ns.foldl (rewireStep qn ni) acc) i = dataD acc i := by
  intro ns
  induction ns with
  | nil => intro acc i; rfl
  | cons j ns ih =>
    intro acc i
    rw [List.foldl_cons, ih, dataD_rewireStep]

/-!
## Structural invariant of extend-built trees
-/

theorem parentD_eq_none_of_le (t : Tree F) (i : Nat) (h : t.vertices.length ≤ i) :
    parentD t i = none := by
  unfold parentD
  rw [List.getD_eq_getElem?_getD, List.getElem?_eq_none h]
  rfl

theorem lt_length_of_parentD_some (t : Tree F) (i p : Nat) (h : parentD t i = some p) :
    i < t.vertices.length := by
  by_contra hle
  push_neg at hle
  rw [parentD_eq_none_of_le t i hle] at h
  exact Option.noConfusion h

theorem structInv_insertLinked {t : Tree F} {rootPt : List F} (inv : StructInv t rootPt)
    (q : List F) (ni : Nat) (hni : ni < t.vertices.length) :
    StructInv (add_edge (add_vertex t q) ni t.vertices.length) rootPt := by
  constructor
  · intro hnil
    have hlen : (add_edge (add_vertex t q) ni t.vertices.length).vertices.length =
        t.vertices.length + 1 := by
      rw [vertices_length_add_edge, vertices_length_add_vertex]
    rw [hnil] at hlen
    simp at hlen
  · intro i p hp
    rw [parentD_insertLinked] at hp
    by_cases hi : i = t.vertices.length
    · rw [if_pos hi] at hp
      injection hp with hpe
      omega
    · rw [if_neg hi] at hp
      exact inv.parent_lt i p hp
  · intro i hilen hp
    rw [parentD_insertLinked] at hp
    by_cases hi : i = t.vertices.length
    · rw [if_pos hi] at hp
      exact Option.noConfusion hp
    · rw [if_neg hi] at hp
      rw [dataD_insertLinked, if_neg hi]
      have hlt : i < t.vertices.length := by
        rw [vertices_length_add_edge, vertices_length_add_vertex] at hilen
        omega
      exact inv.root_data i hlt hp

theorem structInv_extend_snd {t : Tree F} {rootPt : List F} (inv : StructInv t rootPt)
    (sqrtF : F → F) (q : List F) (L : F) (free : List F → Bool) :
    StructInv (extend sqrtF t q L free).2 rootPt := by
  rcases extend_cases sqrtF t q L free with ⟨_, heq⟩ | ⟨_, heq, _⟩
  · rw [heq]
    exact inv
  · rw [heq]
    exact structInv_insertLinked inv _ _ (get_nearest_index_lt t q inv.ne)

theorem extend_snd_name (sqrtF : F → F) (t : Tree F) (q : List F) (L : F)
    (free : List F → Bool) : (extend sqrtF t q L free).2.name = t.name := by
  rcases extend_cases sqrtF t q L free with ⟨_, heq⟩ | ⟨_, heq, _⟩
  · rw [heq]
  · rw [heq, name_add_edge, name_add_vertex]

/-- When `extend` returns Advanced or Reached, the returned index is the
new vertex (the old length), the candidate was free, and the tree is the
insert-then-link composite. -/
theorem extend_new_index (sqrtF : F → F) (t : Tree F) (q : List F) (L : F)
    (free : List F → Bool) (n : Nat)
    (h : (extend sqrtF t q L free).1 = ExtendStatus.Advanced n ∨
         (extend sqrtF t q L free).1 = ExtendStatus.Reached n) :
    n = t.vertices.length ∧ free (candidate sqrtF t q L) = true ∧
      (extend sqrtF t q L free).2 =
        add_edge (add_vertex t (candidate sqrtF t q L)) (get_nearest_index t q)
          t.vertices.length := by
  rcases extend_cases sqrtF t q L free with ⟨_, heq⟩ | ⟨hb, heq2, heq1⟩
  · rw [heq] at h
    rcases h with h | h <;> exact ExtendStatus.noConfusion h
  · refine ⟨?_, hb, heq2⟩
    rw [heq1] at h
    rcases h with h | h <;> split at h <;>
      first
        | (injection h with hh; omega)
        | exact ExtendStatus.noConfusion h

/-!
## The parent walk on invariant-satisfying trees
-/

theorem get_until_root_spec (t : Tree F) (rootPt : List F) (inv : StructInv t rootPt) :
    ∀ (fuel cur : Nat), cur ≤ fuel →
      ∃ l, get_until_root t cur fuel = some l ∧
        (parentD t cur = none → l = []) ∧
        (parentD t cur ≠ none → l ≠ [] ∧ l.getLast? = some rootPt) := by
  intro fuel
  induction fuel with
  | zero =>
    intro cur hcur
    have hcur0 : cur = 0 := Nat.le_zero.mp hcur
    subst hcur0
    cases hp : parentD t 0 with
    | none =>
      exact ⟨[], by simp [get_until_root, hp], fun _ => rfl, fun h => absurd rfl h⟩
    | some p =>
      exact absurd (inv.parent_lt 0 p hp) (by omega)
  | succ fuel ih =>
    intro cur hcur
    cases hp : parentD t cur with
    | none =>
      exact ⟨[], by simp [get_until_root, hp], fun _ => rfl, fun h => absurd rfl h⟩
    | some p =>
      have hplt : p < cur := inv.parent_lt cur p hp
      obtain ⟨l', heq', hnone', hsome'⟩ := ih p (by omega)
      refine ⟨dataD t p :: l', ?_, ?_, ?_⟩
      · simp [get_until_root, hp, heq']
      · intro h
        exact Option.noConfusion h
      · intro _
        refine ⟨by simp, ?_⟩
        cases hpp : parentD t p with
        | none =>
          have hl' : l' = [] := hnone' hpp
          subst hl'
          have hcurlen : cur < t.vertices.length := lt_length_of_parentD_some t cur p hp
          have hplen : p < t.vertices.length := by omega
          simp only [List.getLast?_singleton, Option.some.injEq]
          exact inv.root_data p hplen hpp
        | some pp =>
          obtain ⟨hne', hlast'⟩ := hsome' (by simp [hpp])
          cases l' with
          | nil => exact absurd rfl hne'
          | cons y l'' =>
            rw [List.getLast?_cons_cons]
            exact hlast'

/-!
## `connect` preserves the invariant and only answers Reached/Trapped
-/

theorem connectFuel_inv (sqrtF : F → F) (q : List F) (L : F) (free : List F → Bool)
    (rootPt : List F) :
    ∀ (fuel : Nat) (t t' : Tree F) (s : ExtendStatus),
      StructInv t rootPt →
      connectFuel sqrtF q L free fuel t = some (s, t') →
      StructInv t' rootPt ∧ t'.name = t.name ∧
        (∀ n, s = ExtendStatus.Reached n → parentD t' n ≠ none) ∧
        (∀ n, s ≠ ExtendStatus.Advanced n) := by
  intro fuel
  induction fuel with
  | zero => intro t t' s _ h; exact Option.noConfusion h
  | succ fuel ih =>
    intro t t' s hinv h
    rcases hE : extend sqrtF t q L free with ⟨se, t2⟩
    have hinv2 : StructInv t2 rootPt := by
      have := structInv_extend_snd hinv sqrtF q L free
      rwa [hE] at this
    have hname2 : t2.name = t.name := by
      have := extend_snd_name sqrtF t q L free
      rwa [hE] at this
    simp only [connectFuel] at h
    rw [hE] at h
    cases se with
    | Advanced n =>
      obtain ⟨h1, h2, h3, h4⟩ := ih t2 t' s hinv2 h
      exact ⟨h1, by rw [h2, hname2], h3, h4⟩
    | Reached n =>
      simp only [Option.some.injEq, Prod.mk.injEq] at h
      obtain ⟨hs, ht⟩ := h
      subst hs
      subst ht
      refine ⟨hinv2, hname2, ?_, by intro m hm; exact ExtendStatus.noConfusion hm⟩
      intro m hm
      injection hm with hm
      subst hm
      obtain ⟨hn, _, heq2⟩ := extend_new_index sqrtF t q L free n (Or.inr (by rw [hE]))
      have : parentD t2 n = some (get_nearest_index t q) := by
        rw [show t2 = (extend sqrtF t q L free).2 from by rw [hE], heq2, hn,
          parentD_insertLinked, if_pos rfl]
      rw [this]
      exact fun hh => Option.noConfusion hh
    | Trapped =>
      simp only [Option.some.injEq, Prod.mk.injEq] at h
      obtain ⟨hs, ht⟩ := h
      subst hs
      subst ht
      exact ⟨hinv2, hname2, fun n hnn => ExtendStatus.noConfusion hnn,
        fun n hnn => ExtendStatus.noConfusion hnn⟩

/-!
## Endpoints of every successful dual_rrt_connect path
-/

theorem dualLoop_endpoints (sqrtF : F → F) (start goal : List F) (free : List F → Bool)
    (sample : Nat → List F) (L : F) (cfuel : Nat) :
    ∀ (rem k : Nat) (ta tb : Tree F) (p : List (List F)),
      DualInv start goal ta tb →
      dualLoop sqrtF free sample L cfuel rem k ta tb = some p →
      p.head? = some start ∧ p.getLast? = some goal := by
  intro rem
  induction rem with
  | zero => intro k ta tb p _ h; exact Option.noConfusion h
  | succ rem ih =>
    intro k ta tb p hdi hrun
    obtain ⟨ra, rb, hsa, hsb, hcase⟩ : ∃ ra rb, StructInv ta ra ∧ StructInv tb rb ∧
        ((ta.name = "start" ∧ tb.name = "goal" ∧ ra = start ∧ rb = goal) ∨
         (ta.name = "goal" ∧ tb.name = "start" ∧ ra = goal ∧ rb = start)) := by
      rcases hdi with ⟨hna, hnb, h3, h4⟩ | ⟨hna, hnb, h3, h4⟩
      · exact ⟨start, goal, h3, h4, Or.inl ⟨hna, hnb, rfl, rfl⟩⟩
      · exact ⟨goal, start, h3, h4, Or.inr ⟨hna, hnb, rfl, rfl⟩⟩
    simp only [dualLoop] at hrun
    split at hrun
    -- Trapped: the tree is unchanged, recurse with swapped roles
    · rename_i ta2 hE
      have hta2 : ta2 = ta := by
        rcases extend_cases sqrtF ta (sample k) L free with ⟨_, heq⟩ | ⟨_, _, heq1⟩
        · exact congrArg Prod.snd (hE.symm.trans heq)
        · rw [hE] at heq1
          split at heq1 <;> exact ExtendStatus.noConfusion heq1
      subst hta2
      refine ih (k + 1) tb ta2 p ?_ hrun
      rcases hcase with ⟨hna, hnb, hra, hrb⟩ | ⟨hna, hnb, hra, hrb⟩
      · exact Or.inr ⟨hnb, hna, hrb ▸ hsb, hra ▸ hsa⟩
      · exact Or.inl ⟨hnb, hna, hrb ▸ hsb, hra ▸ hsa⟩
    -- Advanced and Reached arms share one script
    all_goals
      rename_i new_index ta2 hE
      have hor : (extend sqrtF ta (sample k) L free).1 = ExtendStatus.Advanced new_index ∨
          (extend sqrtF ta (sample k) L free).1 = ExtendStatus.Reached new_index := by
        rw [hE]
        first
        | exact Or.inl rfl
        | exact Or.inr rfl
      obtain ⟨hni, hfree, hta2eq⟩ := extend_new_index sqrtF ta (sample k) L free new_index hor
      have hta2 : ta2 = (extend sqrtF ta (sample k) L free).2 := by rw [hE]
      have hinva2 : StructInv ta2 ra := by
        rw [hta2]
        exact structInv_extend_snd hsa sqrtF (sample k) L free
      have hnamea : ta2.name = ta.name := by
        rw [hta2]
        exact extend_snd_name sqrtF ta (sample k) L free
      have hpa : parentD ta2 new_index = some (get_nearest_index ta (sample k)) := by
        rw [hta2, hta2eq, hni, parentD_insertLinked, if_pos rfl]
      have hnilen : new_index ≤ ta2.vertices.length := by
        rw [hta2, hta2eq, vertices_length_add_edge, vertices_length_add_vertex]
        omega
      split at hrun
      -- connect Reached: assemble the path
      · rename_i reach_index tb2 hC
        obtain ⟨hinvb2, hnameb2, hreach, _⟩ :=
          connectFuel_inv sqrtF (dataD ta2 new_index) L free rb cfuel tb tb2
            (ExtendStatus.Reached reach_index) hsb hC
        have hpb : parentD tb2 reach_index ≠ none := hreach reach_index rfl
        obtain ⟨pp, hpp⟩ := Option.ne_none_iff_exists'.mp hpb
        have hrilen : reach_index ≤ tb2.vertices.length :=
          le_of_lt (lt_length_of_parentD_some tb2 reach_index pp hpp)
        obtain ⟨a_all, haeq, _, hasome⟩ :=
          get_until_root_spec ta2 ra hinva2 ta2.vertices.length new_index hnilen
        obtain ⟨hane, halast⟩ := hasome (by rw [hpa]; exact fun h => Option.noConfusion h)
        obtain ⟨b_all, hbeq, _, hbsome⟩ :=
          get_until_root_spec tb2 rb hinvb2 tb2.vertices.length reach_index hrilen
        obtain ⟨hbne, hblast⟩ := hbsome hpb
        split at hrun
        · rename_i a_all' b_all' hA hB
          have ha : a_all' = a_all := by
            have h := hA.symm.trans haeq
            injection h
          have hb : b_all' = b_all := by
            have h := hB.symm.trans hbeq
            injection h
          rw [ha, hb] at hrun
          have hp : p = if tb2.name = "start" then (a_all.reverse ++ b_all).reverse
              else a_all.reverse ++ b_all := by
            injection hrun with h
            exact h.symm
          have hrevne : a_all.reverse ≠ [] := by simpa using hane
          have hjhead : (a_all.reverse ++ b_all).head? = some ra := by
            rw [List.head?_append_of_ne_nil _ hrevne, List.head?_reverse, halast]
          have hjlast : (a_all.reverse ++ b_all).getLast? = some rb := by
            rw [List.getLast?_append, hblast]
            rfl
          rcases hcase with ⟨hna, hnb, hra, hrb⟩ | ⟨hna, hnb, hra, hrb⟩
          · have hcond : ¬ tb2.name = "start" := by
              rw [hnameb2, hnb]
              decide
            rw [if_neg hcond] at hp
            subst hp
            exact ⟨by rw [hjhead, hra], by rw [hjlast, hrb]⟩
          · have hcond : tb2.name = "start" := by rw [hnameb2, hnb]
            rw [if_pos hcond] at hp
            subst hp
            constructor
            · rw [List.head?_reverse, hjlast, hrb]
            · rw [List.getLast?_reverse, hjhead, hra]
        · exact Option.noConfusion hrun
      -- connect did not reach: recurse with swapped roles
      · rename_i st tb2 hne1 hC
        obtain ⟨hinvb2, hnameb2, _, _⟩ :=
          connectFuel_inv sqrtF (dataD ta2 new_index) L free rb cfuel tb tb2 st hsb hC
        refine ih (k + 1) tb2 ta2 p ?_ hrun
        rcases hcase with ⟨hna, hnb, hra, hrb⟩ | ⟨hna, hnb, hra, hrb⟩
        · exact Or.inr ⟨by rw [hnameb2, hnb], by rw [hnamea, hna],
            hrb ▸ hinvb2, hra ▸ hinva2⟩
        · exact Or.inl ⟨by rw [hnameb2, hnb], by rw [hnamea, hna],
            hrb ▸ hinvb2, hra ▸ hinva2⟩
      -- connect ran out of fuel: no result
      · exact Option.noConfusion hrun

/-!
## Metric invariant over the reals: edges are short and checked
-/

theorem metricInv_insertLinked {t : Tree ℝ} {rootPt : List ℝ} {L : ℝ}
    {free : List ℝ → Bool} (hm : MetricInv t L free) (hs : StructInv t rootPt)
    (q : List ℝ) (ni : Nat) (hni : ni < t.vertices.length)
    (hlen : Real.sqrt (squared_euclidean (dataD t ni) q) ≤ L) (hfree : free q = true) :
    MetricInv (add_edge (add_vertex t q) ni t.vertices.length) L free := by
  constructor
  · intro i p hp
    rw [parentD_insertLinked] at hp
    by_cases hi : i = t.vertices.length
    · rw [if_pos hi] at hp
      injection hp with hpe
      rw [hi, ← hpe, dataD_insertLinked, if_neg (by omega), dataD_insertLinked, if_pos rfl]
      exact hlen
    · rw [if_neg hi] at hp
      have hilt : i < t.vertices.length := lt_length_of_parentD_some t i p hp
      have hplt : p < i := hs.parent_lt i p hp
      rw [dataD_insertLinked, dataD_insertLinked,
        if_neg (show ¬ p = t.vertices.length by omega), if_neg hi]
      exact hm.edge_le i p hp
  · intro i hp
    rw [parentD_insertLinked] at hp
    by_cases hi : i = t.vertices.length
    · rw [dataD_insertLinked, if_pos hi]
      exact hfree
    · rw [if_neg hi] at hp
      rw [dataD_insertLinked, if_neg hi]
      exact hm.free_of_parent i hp

/-- The candidate of a free `extend` step lies within `L` of the nearest
vertex: either it is the target itself (then the branch condition bounds the
distance) or the exact-`L` `steer` interpolant. -/
theorem candidate_edge_le (t : Tree ℝ) (q : List ℝ) (L : ℝ) (hL : 0 < L) :
    Real.sqrt (squared_euclidean (dataD t (get_nearest_index t q))
      (candidate Real.sqrt t q L)) ≤ L := by
  unfold candidate
  by_cases hc : Real.sqrt (squared_euclidean q (dataD t (get_nearest_index t q))) < L
  · rw [if_pos hc, squared_euclidean_comm]
    exact le_of_lt hc
  · rw [if_neg hc]
    push_neg at hc
    rw [sqrt_squared_euclidean_steer_from _ _ _ hL hc]

theorem metricInv_extend_snd {t : Tree ℝ} {rootPt : List ℝ} {L : ℝ}
    {free : List ℝ → Bool} (hm : MetricInv t L free) (hs : StructInv t rootPt)
    (q : List ℝ) (hL : 0 < L) :
    MetricInv (extend Real.sqrt t q L free).2 L free := by
  rcases extend_cases Real.sqrt t q L free with ⟨_, heq⟩ | ⟨hfree, heq, _⟩
  · rw [heq]
    exact hm
  · rw [heq]
    exact metricInv_insertLinked hm hs _ _ (get_nearest_index_lt t q hs.ne)
      (candidate_edge_le t q L hL) hfree

theorem connectFuel_minv (q : List ℝ) (L : ℝ) (free : List ℝ → Bool) (rootPt : List ℝ)
    (hL : 0 < L) :
    ∀ (fuel : Nat) (t t' : Tree ℝ) (s : ExtendStatus),
      StructInv t rootPt → MetricInv t L free →
      connectFuel Real.sqrt q L free fuel t = some (s, t') →
      MetricInv t' L free := by
  intro fuel
  induction fuel with
  | zero => intro t t' s _ _ h; exact Option.noConfusion h
  | succ fuel ih =>
    intro t t' s hsinv hminv h
    rcases hE : extend Real.sqrt t q L free with ⟨se, t2⟩
    have hsinv2 : StructInv t2 rootPt := by
      have hh := structInv_extend_snd hsinv Real.sqrt q L free
      rwa [hE] at hh
    have hminv2 : MetricInv t2 L free := by
      have hh := metricInv_extend_snd hminv hsinv q hL
      rwa [hE] at hh
    simp only [connectFuel] at h
    rw [hE] at h
    cases se with
    | Advanced n => exact ih t2 t' s hsinv2 hminv2 h
    | Reached n =>
      simp only [Option.some.injEq, Prod.mk.injEq] at h
      rw [← h.2]
      exact hminv2
    | Trapped =>
      simp only [Option.some.injEq, Prod.mk.injEq] at h
      rw [← h.2]
      exact hminv2

/-- On an invariant-satisfying tree with feasible root, the parent walk
yields a chain of short hops through feasible points (including the start
vertex's point at the head). -/
theorem get_until_root_chain (t : Tree ℝ) (rootPt : List ℝ) (L : ℝ) (free : List ℝ → Bool)
    (inv : StructInv t rootPt) (hm : MetricInv t L free) (hroot : free rootPt = true) :
    ∀ (fuel cur : Nat), cur ≤ fuel →
      ∃ l, get_until_root t cur fuel = some l ∧
        List.Chain' (fun a b => Real.sqrt (squared_euclidean a b) ≤ L) (dataD t cur :: l) ∧
        ∀ x ∈ l, free x = true := by
  intro fuel
  induction fuel with
  | zero =>
    intro cur hcur
    have hcur0 : cur = 0 := Nat.le_zero.mp hcur
    subst hcur0
    cases hp : parentD t 0 with
    | none =>
      refine ⟨[], by simp [get_until_root, hp], by simp, by simp⟩
    | some p =>
      exact absurd (inv.parent_lt 0 p hp) (by omega)
  | succ fuel ih =>
    intro cur hcur
    cases hp : parentD t cur with
    | none =>
      refine ⟨[], by simp [get_until_root, hp], by simp, by simp⟩
    | some p =>
      have hplt : p < cur := inv.parent_lt cur p hp
      obtain ⟨l', heq', hchain', hmem'⟩ := ih p (by omega)
      refine ⟨dataD t p :: l', by simp [get_until_root, hp, heq'], ?_, ?_⟩
      · rw [List.chain'_cons]
        refine ⟨?_, hchain'⟩
        rw [squared_euclidean_comm]
        exact hm.edge_le cur p hp
      · intro x hx
        rcases List.mem_cons.mp hx with rfl | hx'
        · cases hpp : parentD t p with
          | none =>
            have hplen : p < t.vertices.length :=
              Nat.lt_of_lt_of_le hplt (Nat.le_of_lt (lt_length_of_parentD_some t cur p hp))
            rw [inv.root_data p hplen hpp]
            exact hroot
          | some pp =>
            exact hm.free_of_parent p (by simp [hpp])
        · exact hmem' x hx'

/-!
## Validity of every successful dual_rrt_connect path: the returned list
splits into the two trees' root chains, each with hops of length at most
`L` through feasibility-checked points; only the junction between the two
chains is unconstrained.
-/

theorem dualLoop_valid (start goal : List ℝ) (free : List ℝ → Bool)
    (sample : Nat → List ℝ) (L : ℝ) (cfuel : Nat) (hL : 0 < L)
    (hfs : free start = true) (hfg : free goal = true) :
    ∀ (rem k : Nat) (ta tb : Tree ℝ) (p : List (List ℝ)),
      DualInv start goal ta tb →
      MetricInv ta L free → MetricInv tb L free →
      dualLoop Real.sqrt free sample L cfuel rem k ta tb = some p →
      ∃ s1 s2, p = s1 ++ s2 ∧
        List.Chain' (fun a b => Real.sqrt (squared_euclidean a b) ≤ L) s1 ∧
        List.Chain' (fun a b => Real.sqrt (squared_euclidean a b) ≤ L) s2 ∧
        ∀ x ∈ p, free x = true := by
  intro rem
  induction rem with
  | zero => intro k ta tb p _ _ _ h; exact Option.noConfusion h
  | succ rem ih =>
    intro k ta tb p hdi hma hmb hrun
    obtain ⟨ra, rb, hsa, hsb, hcase⟩ : ∃ ra rb, StructInv ta ra ∧ StructInv tb rb ∧
        ((ta.name = "start" ∧ tb.name = "goal" ∧ ra = start ∧ rb = goal) ∨
         (ta.name = "goal" ∧ tb.name = "start" ∧ ra = goal ∧ rb = start)) := by
      rcases hdi with ⟨hna, hnb, h3, h4⟩ | ⟨hna, hnb, h3, h4⟩
      · exact ⟨start, goal, h3, h4, Or.inl ⟨hna, hnb, rfl, rfl⟩⟩
      · exact ⟨goal, start, h3, h4, Or.inr ⟨hna, hnb, rfl, rfl⟩⟩
    have hfra : free ra = true := by
      rcases hcase with ⟨_, _, hra, _⟩ | ⟨_, _, hra, _⟩
      · rw [hra]; exact hfs
      · rw [hra]; exact hfg
    have hfrb : free rb = true := by
      rcases hcase with ⟨_, _, _, hrb⟩ | ⟨_, _, _, hrb⟩
      · rw [hrb]; exact hfg
      · rw [hrb]; exact hfs
    simp only [dualLoop] at hrun
    split at hrun
    · rename_i ta2 hE
      have hta2 : ta2 = ta := by
        rcases extend_cases Real.sqrt ta (sample k) L free with ⟨_, heq⟩ | ⟨_, _, heq1⟩
        · exact congrArg Prod.snd (hE.symm.trans heq)
        · rw [hE] at heq1
          split at heq1 <;> exact ExtendStatus.noConfusion heq1
      subst hta2
      refine ih (k + 1) tb ta2 p ?_ hmb hma hrun
      rcases hcase with ⟨hna, hnb, hra, hrb⟩ | ⟨hna, hnb, hra, hrb⟩
      · exact Or.inr ⟨hnb, hna, hrb ▸ hsb, hra ▸ hsa⟩
      · exact Or.inl ⟨hnb, hna, hrb ▸ hsb, hra ▸ hsa⟩
    all_goals
      rename_i new_index ta2 hE
      have hor : (extend Real.sqrt ta (sample k) L free).1 = ExtendStatus.Advanced new_index ∨
          (extend Real.sqrt ta (sample k) L free).1 = ExtendStatus.Reached new_index := by
        rw [hE]
        first
        | exact Or.inl rfl
        | exact Or.inr rfl
      obtain ⟨hni, hfree, hta2eq⟩ :=
        extend_new_index Real.sqrt ta (sample k) L free new_index hor
      have hta2 : ta2 = (extend Real.sqrt ta (sample k) L free).2 := by rw [hE]
      have hinva2 : StructInv ta2 ra := by
        rw [hta2]
        exact structInv_extend_snd hsa Real.sqrt (sample k) L free
      have hminva2 : MetricInv ta2 L free := by
        rw [hta2]
        exact metricInv_extend_snd hma hsa (sample k) hL
      have hnamea : ta2.name = ta.name := by
        rw [hta2]
        exact extend_snd_name Real.sqrt ta (sample k) L free
      have hpa : parentD ta2 new_index = some (get_nearest_index ta (sample k)) := by
        rw [hta2, hta2eq, hni, parentD_insertLinked, if_pos rfl]
      have hnilen : new_index ≤ ta2.vertices.length := by
        rw [hta2, hta2eq, vertices_length_add_edge, vertices_length_add_vertex]
        omega
      split at hrun
      -- connect Reached: the assembled path is two chains
      · rename_i reach_index tb2 hC
        obtain ⟨hinvb2, hnameb2, hreach, _⟩ :=
          connectFuel_inv Real.sqrt (dataD ta2 new_index) L free rb cfuel tb tb2
            (ExtendStatus.Reached reach_index) hsb hC
        have hminvb2 : MetricInv tb2 L free :=
          connectFuel_minv (dataD ta2 new_index) L free rb hL cfuel tb tb2
            (ExtendStatus.Reached reach_index) hsb hmb hC
        have hpb : parentD tb2 reach_index ≠ none := hreach reach_index rfl
        obtain ⟨pp, hpp⟩ := Option.ne_none_iff_exists'.mp hpb
        have hrilen : reach_index ≤ tb2.vertices.length :=
          le_of_lt (lt_length_of_parentD_some tb2 reach_index pp hpp)
        obtain ⟨a_all, haeq, hachain, hamem⟩ :=
          get_until_root_chain ta2 ra L free hinva2 hminva2 hfra
            ta2.vertices.length new_index hnilen
        obtain ⟨b_all, hbeq, hbchain, hbmem⟩ :=
          get_until_root_chain tb2 rb L free hinvb2 hminvb2 hfrb
            tb2.vertices.length reach_index hrilen
        split at hrun
        · rename_i a_all' b_all' hA hB
          have ha : a_all' = a_all := by
            have h := hA.symm.trans haeq
            injection h
          have hb : b_all' = b_all := by
            have h := hB.symm.trans hbeq
            injection h
          rw [ha, hb] at hrun
          have hp : p = if tb2.name = "start" then (a_all.reverse ++ b_all).reverse
              else a_all.reverse ++ b_all := by
            injection hrun with h
            exact h.symm
          have hca : List.Chain' (fun a b => Real.sqrt (squared_euclidean a b) ≤ L) a_all :=
            hachain.tail
          have hcb : List.Chain' (fun a b => Real.sqrt (squared_euclidean a b) ≤ L) b_all :=
            hbchain.tail
          have hcar : List.Chain' (fun a b => Real.sqrt (squared_euclidean a b) ≤ L)
              a_all.reverse := by
            rw [List.chain'_reverse]
            refine hca.imp (fun a b h => ?_)
            show Real.sqrt (squared_euclidean b a) ≤ L
            rwa [squared_euclidean_comm]
          have hcbr : List.Chain' (fun a b => Real.sqrt (squared_euclidean a b) ≤ L)
              b_all.reverse := by
            rw [List.chain'_reverse]
            refine hcb.imp (fun a b h => ?_)
            show Real.sqrt (squared_euclidean b a) ≤ L
            rwa [squared_euclidean_comm]
          have hmemall : ∀ x ∈ a_all.reverse ++ b_all, free x = true := by
            intro x hx
            rcases List.mem_append.mp hx with hx' | hx'
            · exact hamem x (List.mem_reverse.mp hx')
            · exact hbmem x hx'
          by_cases hcond : tb2.name = "start"
          · rw [if_pos hcond] at hp
            refine ⟨b_all.reverse, a_all.reverse.reverse, ?_, hcbr, ?_, ?_⟩
            · rw [hp, List.reverse_append]
            · rw [List.reverse_reverse]
              exact hca
            · intro x hx
              rw [hp] at hx
              exact hmemall x (List.mem_reverse.mp hx)
          · rw [if_neg hcond] at hp
            exact ⟨a_all.reverse, b_all, hp, hcar, hcb, hp ▸ hmemall⟩
        · exact Option.noConfusion hrun
      -- connect did not reach: recurse with swapped roles
      · rename_i st tb2 hne1 hC
        obtain ⟨hinvb2, hnameb2, _, _⟩ :=
          connectFuel_inv Real.sqrt (dataD ta2 new_index) L free rb cfuel tb tb2 st hsb hC
        have hminvb2 : MetricInv tb2 L free :=
          connectFuel_minv (dataD ta2 new_index) L free rb hL cfuel tb tb2 st hsb hmb hC
        refine ih (k + 1) tb2 ta2 p ?_ hminvb2 hminva2 hrun
        rcases hcase with ⟨hna, hnb, hra, hrb⟩ | ⟨hna, hnb, hra, hrb⟩
        · exact Or.inr ⟨by rw [hnameb2, hnb], by rw [hnamea, hna],
            hrb ▸ hinvb2, hra ▸ hinva2⟩
        · exact Or.inl ⟨by rw [hnameb2, hnb], by rw [hnamea, hna],
            hrb ▸ hinvb2, hra ▸ hinva2⟩
      · exact Option.noConfusion hrun

/-!
## extend_rewire vs extend (C2), the radius query (C7), and the rewiring
self-parent defect (C1/C3)
-/

/-- C2 (amended): `extend_rewire` runs steps 1–3 exactly as `extend` — the
same candidate, Trapped with no mutation exactly when the candidate is
infeasible — and inserts the same new vertex; but where `extend` answers
Reached exactly when the candidate's unsquared distance to the target is
below `extend_length`, `extend_rewire` compares the *squared* distance
against `extend_length`. -/
theorem extend_rewire_vs_extend (sqrtF : F → F) (t : Tree F) (q_target : List F) (L : F)
    (is_free : List F → Bool) (hL : 0 < L) (hne : t.vertices ≠ []) :
    (is_free (candidate sqrtF t q_target L) = false →
      extend sqrtF t q_target L is_free = (ExtendStatus.Trapped, t) ∧
      extend_rewire sqrtF t q_target L is_free = (ExtendStatus.Trapped, t)) ∧
    (is_free (candidate sqrtF t q_target L) = true →
      dataD (extend sqrtF t q_target L is_free).2 t.vertices.length =
          candidate sqrtF t q_target L ∧
      dataD (extend_rewire sqrtF t q_target L is_free).2 t.vertices.length =
          candidate sqrtF t q_target L ∧
      ((extend sqrtF t q_target L is_free).1 = ExtendStatus.Reached t.vertices.length ↔
        sqrtF (squared_euclidean (candidate sqrtF t q_target L) q_target) < L) ∧
      ((extend_rewire sqrtF t q_target L is_free).1 =
          ExtendStatus.Reached t.vertices.length ↔
        squared_euclidean (candidate sqrtF t q_target L) q_target < L)) := by
  constructor
  · intro hfree
    constructor
    · rcases extend_cases sqrtF t q_target L is_free with ⟨_, heq⟩ | ⟨hb, _, _⟩
      · exact heq
      · rw [hfree] at hb
        exact Bool.noConfusion hb
    · rcases extend_rewire_cases sqrtF t q_target L is_free with ⟨_, heq⟩ | ⟨hb, _, _⟩
      · exact heq
      · rw [hfree] at hb
        exact Bool.noConfusion hb
  · intro hfree
    refine ⟨?_, ?_, ?_, ?_⟩
    · rcases extend_cases sqrtF t q_target L is_free with ⟨hb, _⟩ | ⟨_, heq2, _⟩
      · rw [hfree] at hb
        exact Bool.noConfusion hb
      · rw [heq2, dataD_insertLinked, if_pos rfl]
    · rcases extend_rewire_cases sqrtF t q_target L is_free with ⟨hb, _⟩ | ⟨_, heq2, _⟩
      · rw [hfree] at hb
        exact Bool.noConfusion hb
      · rw [heq2, dataD_rewireFold, dataD_insertLinked, if_pos rfl]
    · rcases extend_cases sqrtF t q_target L is_free with ⟨hb, _⟩ | ⟨_, _, heq1⟩
      · rw [hfree] at hb
        exact Bool.noConfusion hb
      · rw [heq1]
        constructor
        · intro h
          by_contra hc
          rw [if_neg hc] at h
          exact ExtendStatus.noConfusion h
        · intro h
          rw [if_pos h]
    · rcases extend_rewire_cases sqrtF t q_target L is_free with ⟨hb, _⟩ | ⟨_, _, heq1⟩
      · rw [hfree] at hb
        exact Bool.noConfusion hb
      · rw [heq1]
        constructor
        · intro h
          by_contra hc
          rw [if_neg hc] at h
          exact ExtendStatus.noConfusion h
        · intro h
          rw [if_pos h]

/-- Witness for the amended C2 on a concrete one-vertex tree. -/
theorem extend_rewire_vs_extend_witness :
    (0 : ℝ) < 1 ∧ (⟨[⟨none, [0]⟩], "t"⟩ : Tree ℝ).vertices ≠ [] ∧
      ((fun _ : List ℝ => true) (candidate Real.sqrt (⟨[⟨none, [0]⟩], "t"⟩ : Tree ℝ) [0] 1)
          = true →
        dataD (extend Real.sqrt (⟨[⟨none, [0]⟩], "t"⟩ : Tree ℝ) [0] 1
            (fun _ => true)).2 1 =
          candidate Real.sqrt (⟨[⟨none, [0]⟩], "t"⟩ : Tree ℝ) [0] 1 ∧
        dataD (extend_rewire Real.sqrt (⟨[⟨none, [0]⟩], "t"⟩ : Tree ℝ) [0] 1
            (fun _ => true)).2 1 =
          candidate Real.sqrt (⟨[⟨none, [0]⟩], "t"⟩ : Tree ℝ) [0] 1 ∧
        ((extend Real.sqrt (⟨[⟨none, [0]⟩], "t"⟩ : Tree ℝ) [0] 1 (fun _ => true)).1 =
            ExtendStatus.Reached 1 ↔
          Real.sqrt (squared_euclidean
            (candidate Real.sqrt (⟨[⟨none, [0]⟩], "t"⟩ : Tree ℝ) [0] 1) [0]) < 1) ∧
        ((extend_rewire Real.sqrt (⟨[⟨none, [0]⟩], "t"⟩ : Tree ℝ) [0] 1
            (fun _ => true)).1 = ExtendStatus.Reached 1 ↔
          squared_euclidean
            (candidate Real.sqrt (⟨[⟨none, [0]⟩], "t"⟩ : Tree ℝ) [0] 1) [0] < 1)) :=
  ⟨by norm_num, by simp,
    (extend_rewire_vs_extend Real.sqrt (⟨[⟨none, [0]⟩], "t"⟩ : Tree ℝ) [0] 1
      (fun _ => true) (by norm_num) (by simp)).2⟩

/-- Counterexample to C2 as stated: on the one-vertex tree at `[0]` with
target `[7/4]` and `extend_length = 17/20`, both primitives insert the
candidate `[17/20]`, whose Euclidean distance to the target is `9/10 ≥
17/20`; `extend` therefore answers Advanced, yet `extend_rewire` answers
Reached because the squared distance `81/100` is below `17/20`. -/
theorem extend_rewire_vs_extend_counterexample :
    (extend Real.sqrt (⟨[⟨none, [0]⟩], "t"⟩ : Tree ℝ) [7 / 4] (17 / 20)
        (fun _ => true)).1 = ExtendStatus.Advanced 1 ∧
    (extend_rewire Real.sqrt (⟨[⟨none, [0]⟩], "t"⟩ : Tree ℝ) [7 / 4] (17 / 20)
        (fun _ => true)).1 = ExtendStatus.Reached 1 ∧
    ¬ Real.sqrt (squared_euclidean [(17 / 20 : ℝ)] [7 / 4]) < 17 / 20 := by
  have h4916 : Real.sqrt (49 / 16) = 7 / 4 := by
    rw [show (49 / 16 : ℝ) = (7 / 4) ^ 2 by norm_num, Real.sqrt_sq (by norm_num)]
  have h81 : Real.sqrt (81 / 100) = 9 / 10 := by
    rw [show (81 / 100 : ℝ) = (9 / 10) ^ 2 by norm_num, Real.sqrt_sq (by norm_num)]
  refine ⟨?_, ?_, ?_⟩
  · norm_num [extend, get_nearest_index, nearestAux, squared_euclidean, dataD, parentD,
      add_vertex, add_edge, defaultNode, steer, h4916, h81]
  · norm_num [extend_rewire, get_nearest_index, nearestAux, squared_euclidean, dataD,
      parentD, add_vertex, add_edge, defaultNode, steer, get_nearest_indices_in_radius,
      rewireStep, List.range_succ, h4916, h81]
  · norm_num [squared_euclidean, h81]

/-- C7 (amended): the radius query returns exactly the indices of stored
points whose *squared* Euclidean distance to the query is at most `radius`
(inclusive boundary) — the kdtree `within` call filters by the supplied
`squared_euclidean` distance function with no square root taken. -/
theorem get_nearest_indices_in_radius_spec (t : Tree F) (q : List F) (radius : F)
    (i : Nat) :
    i ∈ get_nearest_indices_in_radius t q radius ↔
      i < t.vertices.length ∧ squared_euclidean (dataD t i) q ≤ radius := by
  unfold get_nearest_indices_in_radius
  simp [List.mem_filter, List.mem_range]

/-- Counterexample to C7 as stated: a stored point at true Euclidean
distance `2 ≤ radius = 2` from the query is *not* returned, because its
squared distance `4` exceeds the radius value the query filters by. -/
theorem get_nearest_indices_in_radius_counterexample :
    ¬ 1 ∈ get_nearest_indices_in_radius
        (⟨[⟨none, [0]⟩, ⟨none, [2]⟩], "t"⟩ : Tree ℝ) [0] 2 ∧
    Real.sqrt (squared_euclidean
        (dataD (⟨[⟨none, [0]⟩, ⟨none, [2]⟩], "t"⟩ : Tree ℝ) 1) [0]) ≤ 2 ∧
    1 < (⟨[⟨none, ([0] : List ℝ)⟩, ⟨none, [2]⟩], "t"⟩ : Tree ℝ).vertices.length := by
  have h4 : Real.sqrt 4 = 2 := by
    rw [show (4 : ℝ) = 2 ^ 2 by norm_num, Real.sqrt_sq (by norm_num)]
  refine ⟨?_, ?_, ?_⟩
  · norm_num [get_nearest_indices_in_radius, squared_euclidean, dataD, defaultNode,
      List.range_succ]
  · norm_num [squared_euclidean, dataD, defaultNode, h4]
  · norm_num

/-- C1 is violated by the code: on the one-vertex tree at `[0]`, a
successful `extend_rewire` toward `[3]` with `extend_length = 1` inserts
vertex 1 at `[1]` and then, in its rewiring pass, sets vertex 1's parent to
1 itself — the radius query of the already-updated tree returns the new
vertex, which is closer to itself (distance 0) than its parent is. -/
theorem extend_rewire_self_parent :
    parentD (extend_rewire Real.sqrt (⟨[⟨none, [0]⟩], "start"⟩ : Tree ℝ) [3] 1
        (fun _ => true)).2 1 = some 1 ∧
    (extend_rewire Real.sqrt (⟨[⟨none, [0]⟩], "start"⟩ : Tree ℝ) [3] 1
        (fun _ => true)).1 = ExtendStatus.Advanced 1 := by
  have h9 : Real.sqrt 9 = 3 := by
    rw [show (9 : ℝ) = 3 ^ 2 by norm_num, Real.sqrt_sq (by norm_num)]
  constructor <;>
    norm_num [extend_rewire, get_nearest_index, nearestAux, squared_euclidean, dataD,
      parentD, add_vertex, add_edge, defaultNode, steer, get_nearest_indices_in_radius,
      rewireStep, List.range_succ, h9]

/-- A vertex whose parent is itself makes the parent walk loop forever:
no fuel suffices. -/
theorem get_until_root_self_loop (t : Tree F) (i : Nat) (h : parentD t i = some i) :
    ∀ fuel, get_until_root t i fuel = none := by
  intro fuel
  induction fuel with
  | zero => simp [get_until_root, h]
  | succ fuel ih => simp [get_until_root, h, ih]

/-- C3 is violated by the code: with `start = [0]`, `goal = [1]`,
`extend_length = 2`, an always-true predicate and a goal-biased first draw,
`rrt_star_connect` reaches the direct-goal-connection branch, but the
vertex it connects the goal through has been self-parented by the rewiring
pass, so the final `get_until_root` walk never reaches the root: the model
returns `none` for the whole call (the Rust `while let` loop runs forever),
and indeed no fuel completes the walk on the resulting tree. -/
theorem rrt_star_connect_diverges :
    rrt_star_connect Real.sqrt [(0 : ℝ)] [1] (fun _ => true) (fun _ => [0])
        (fun _ => true) 2 1 = none ∧
    ∀ fuel, get_until_root
        (⟨[⟨none, [0]⟩, ⟨some 1, [1]⟩, ⟨some 1, [1]⟩], "rrt_star"⟩ : Tree ℝ) 2 fuel =
      none := by
  constructor
  · norm_num [rrt_star_connect, rrtStarLoop, extend_rewire, get_until_root,
      get_nearest_index, nearestAux, squared_euclidean, dataD, parentD, add_vertex,
      add_edge, defaultNode, steer, get_nearest_indices_in_radius, rewireStep,
      List.range_succ, Real.sqrt_zero, Real.sqrt_one]
  · intro fuel
    have hself : parentD
        (⟨[⟨none, [0]⟩, ⟨some 1, [1]⟩, ⟨some 1, [1]⟩], "rrt_star"⟩ : Tree ℝ) 1 =
        some 1 := rfl
    cases fuel with
    | zero => rfl
    | succ fuel =>
      have hstuck := get_until_root_self_loop
        (⟨[⟨none, [0]⟩, ⟨some 1, [1]⟩, ⟨some 1, [1]⟩], "rrt_star"⟩ : Tree ℝ) 1 hself fuel
      have hp2 : parentD
          (⟨[⟨none, [0]⟩, ⟨some 1, [1]⟩, ⟨some 1, [1]⟩], "rrt_star"⟩ : Tree ℝ) 2 =
          some 1 := rfl
      simp [get_until_root, hp2, hstuck]

/-- Counterexample to C9 as stated: with identical (deterministic) sampler
and predicate, two runs of `rrt_star_connect` differing only in the hidden
`rand::random` goal-bias draws produce different results: the unbiased run
returns the path `[[0], [0]]`, while the goal-biased run connects through a
self-parented vertex and never terminates (`none` in the model). -/
theorem rrt_star_connect_nondeterministic :
    rrt_star_connect Real.sqrt [(0 : ℝ)] [1] (fun _ => true) (fun _ => [0])
        (fun _ => false) (3 / 2) 1 = some [[0], [0]] ∧
    rrt_star_connect Real.sqrt [(0 : ℝ)] [1] (fun _ => true) (fun _ => [0])
        (fun _ => true) (3 / 2) 1 = none ∧
    rrt_star_connect Real.sqrt [(0 : ℝ)] [1] (fun _ => true) (fun _ => [0])
        (fun _ => false) (3 / 2) 1 ≠
      rrt_star_connect Real.sqrt [(0 : ℝ)] [1] (fun _ => true) (fun _ => [0])
        (fun _ => true) (3 / 2) 1 := by
  have h1 : rrt_star_connect Real.sqrt [(0 : ℝ)] [1] (fun _ => true) (fun _ => [0])
      (fun _ => false) (3 / 2) 1 = some [[0], [0]] := by
    norm_num [rrt_star_connect, rrtStarLoop, extend_rewire, get_until_root,
      get_nearest_index, nearestAux, squared_euclidean, dataD, parentD, add_vertex,
      add_edge, defaultNode, steer, get_nearest_indices_in_radius, rewireStep,
      List.range_succ, Real.sqrt_zero, Real.sqrt_one]
  have h2 : rrt_star_connect Real.sqrt [(0 : ℝ)] [1] (fun _ => true) (fun _ => [0])
      (fun _ => true) (3 / 2) 1 = none := by
    norm_num [rrt_star_connect, rrtStarLoop, extend_rewire, get_until_root,
      get_nearest_index, nearestAux, squared_euclidean, dataD, parentD, add_vertex,
      add_edge, defaultNode, steer, get_nearest_indices_in_radius, rewireStep,
      List.range_succ, Real.sqrt_zero, Real.sqrt_one]
  refine ⟨h1, h2, ?_⟩
  rw [h1, h2]
  exact fun h => Option.noConfusion h

/-- C9 (amended, dual_rrt_connect part): `dual_rrt_connect` draws no hidden
randomness — its result is a function of the declared inputs alone, so two
runs with samplers that agree call-by-call coincide. -/
theorem dual_rrt_connect_deterministic (sqrtF : F → F) (start goal : List F)
    (is_free : List F → Bool) (extend_length : F) (num_max_try cfuel : Nat)
    (sample1 sample2 : Nat → List F) (h : ∀ k, sample1 k = sample2 k) :
    dual_rrt_connect sqrtF start goal is_free sample1 extend_length num_max_try cfuel =
      dual_rrt_connect sqrtF start goal is_free sample2 extend_length num_max_try cfuel := by
  have hs : sample1 = sample2 := funext h
  rw [hs]

/-- Witness for the amended C9 with two syntactically distinct but equal
constant samplers. -/
theorem dual_rrt_connect_deterministic_witness :
    (∀ k : Nat, (fun _ : Nat => [(0 : ℝ)]) k = (fun _ : Nat => [0 + 0]) k) ∧
      dual_rrt_connect Real.sqrt [(0 : ℝ)] [0] (fun _ => true) (fun _ => [0]) 1 1 1 =
        dual_rrt_connect Real.sqrt [(0 : ℝ)] [0] (fun _ => true) (fun _ => [0 + 0]) 1 1 1 :=
  ⟨fun _ => by norm_num,
    dual_rrt_connect_deterministic Real.sqrt [(0 : ℝ)] [0] (fun _ => true) 1 1 1
      (fun _ => [0]) (fun _ => [0 + 0]) (fun _ => by norm_num)⟩

/-!
## Fresh single-root trees satisfy the invariants
-/

theorem parentD_root_tree (pt : List F) (nm : String) (i : Nat) :
    parentD (⟨[⟨none, pt⟩], nm⟩ : Tree F) i = none := by
  unfold parentD
  match i with
  | 0 => rfl
  | i + 1 => simp [defaultNode]

theorem structInv_singleton (pt : List F) (nm : String) :
    StructInv (⟨[⟨none, pt⟩], nm⟩ : Tree F) pt := by
  refine ⟨by simp, ?_, ?_⟩
  · intro i p h
    rw [parentD_root_tree] at h
    exact Option.noConfusion h
  · intro i hi _
    have hi0 : i = 0 := by simpa using hi
    subst hi0
    rfl

theorem metricInv_singleton (pt : List ℝ) (nm : String) (L : ℝ) (free : List ℝ → Bool) :
    MetricInv (⟨[⟨none, pt⟩], nm⟩ : Tree ℝ) L free := by
  constructor
  · intro i p h
    rw [parentD_root_tree] at h
    exact Option.noConfusion h
  · intro i h
    rw [parentD_root_tree] at h
    exact absurd rfl h

/-- A concrete complete run used by the witnesses: with `start = goal =
[0]`, one iteration and one unit of connect fuel, `dual_rrt_connect`
returns the two-point path `[[0], [0]]`. -/
theorem dual_run_zero :
    dual_rrt_connect Real.sqrt [(0 : ℝ)] [0] (fun _ => true) (fun _ => [0]) 1 1 1 =
      some [[0], [0]] := by
  norm_num [dual_rrt_connect, dualLoop, extend, connectFuel, get_until_root,
    get_nearest_index, nearestAux, squared_euclidean, dataD, parentD, add_vertex, add_edge,
    defaultNode, steer, Real.sqrt_zero]

/-- C5: for every sqrt model and all inputs with matching dimensions and a
positive step, every path returned by dual_rrt_connect begins with `start`
and ends with `goal`, whatever role swaps happened. -/
theorem dual_rrt_connect_endpoints (sqrtF : F → F) (start goal : List F)
    (is_free : List F → Bool) (random_sample : Nat → List F) (extend_length : F)
    (num_max_try cfuel : Nat) (p : List (List F))
    (hL : 0 < extend_length) (hdim : start.length = goal.length)
    (hrun : dual_rrt_connect sqrtF start goal is_free random_sample extend_length
      num_max_try cfuel = some p) :
    p.head? = some start ∧ p.getLast? = some goal := by
  refine dualLoop_endpoints sqrtF start goal is_free random_sample extend_length cfuel
    num_max_try 0 ⟨[⟨none, start⟩], "start"⟩ ⟨[⟨none, goal⟩], "goal"⟩ p ?_ hrun
  exact Or.inl ⟨rfl, rfl, structInv_singleton start "start", structInv_singleton goal "goal"⟩

/-- Witness for C5 at the concrete run of `dual_run_zero`. -/
theorem dual_rrt_connect_endpoints_witness :
    (0 : ℝ) < 1 ∧ [(0 : ℝ)].length = [(0 : ℝ)].length ∧
      ([[(0 : ℝ)], [0]].head? = some [0] ∧ [[(0 : ℝ)], [0]].getLast? = some [0]) :=
  ⟨by norm_num, rfl,
    dual_rrt_connect_endpoints Real.sqrt [(0 : ℝ)] [0] (fun _ => true) (fun _ => [0]) 1 1 1
      [[0], [0]] (by norm_num) rfl dual_run_zero⟩

/-- Counterexample to C4 as stated: with `start = [0]`, `goal = [3]`,
`extend_length = 11/10`, the predicate "head coordinate at least 1" and the
constant sampler `[3]`, `dual_rrt_connect` succeeds with the path
`[[0], [3]]` — whose only consecutive pair is at Euclidean distance `3 >
11/10`, and whose waypoint `[0]` fails the predicate.  (The junction
vertices are dropped because `get_until_root` excludes the starting vertex
of the walk.) -/
theorem dual_rrt_connect_valid_counterexample :
    dual_rrt_connect Real.sqrt [(0 : ℝ)] [3] (fun p => decide (1 ≤ p.headD 0))
        (fun _ => [3]) (11 / 10) 1 1 = some [[0], [3]] ∧
      ¬ Real.sqrt (squared_euclidean [(0 : ℝ)] [3]) ≤ 11 / 10 ∧
      (fun p : List ℝ => decide (1 ≤ p.headD 0)) [0] = false := by
  have h9 : Real.sqrt 9 = 3 := by
    rw [show (9 : ℝ) = 3 ^ 2 by norm_num, Real.sqrt_sq (by norm_num)]
  refine ⟨?_, ?_, ?_⟩
  · have h361 : Real.sqrt (361 / 100) = 19 / 10 := by
      rw [show (361 / 100 : ℝ) = (19 / 10) ^ 2 by norm_num, Real.sqrt_sq (by norm_num)]
    have h1625 : Real.sqrt (16 / 25) = 4 / 5 := by
      rw [show (16 / 25 : ℝ) = (4 / 5) ^ 2 by norm_num, Real.sqrt_sq (by norm_num)]
    have h64 : Real.sqrt (64 / 100) = 4 / 5 := by
      rw [show (64 / 100 : ℝ) = (4 / 5) ^ 2 by norm_num, Real.sqrt_sq (by norm_num)]
    norm_num [dual_rrt_connect, dualLoop, extend, connectFuel, get_until_root,
      get_nearest_index, nearestAux, squared_euclidean, dataD, parentD, add_vertex,
      add_edge, defaultNode, steer, h9, h361, h1625, h64]
    decide
  · norm_num [squared_euclidean, h9]
  · norm_num

/-- C4 (amended): every successful dual_rrt_connect path splits into the
two trees' chains, inside which consecutive waypoints are at Euclidean
distance at most `extend_length`; only the single junction pair between the
chains is unconstrained.  Every waypoint is feasible provided `start` and
`goal` themselves are (the two roots are inserted without being checked). -/
theorem dual_rrt_connect_valid (start goal : List ℝ) (is_free : List ℝ → Bool)
    (random_sample : Nat → List ℝ) (extend_length : ℝ) (num_max_try cfuel : Nat)
    (p : List (List ℝ)) (hL : 0 < extend_length)
    (hfs : is_free start = true) (hfg : is_free goal = true)
    (hrun : dual_rrt_connect Real.sqrt start goal is_free random_sample extend_length
      num_max_try cfuel = some p) :
    ∃ s1 s2, p = s1 ++ s2 ∧
      List.Chain' (fun a b => Real.sqrt (squared_euclidean a b) ≤ extend_length) s1 ∧
      List.Chain' (fun a b => Real.sqrt (squared_euclidean a b) ≤ extend_length) s2 ∧
      ∀ x ∈ p, is_free x = true := by
  refine dualLoop_valid start goal is_free random_sample extend_length cfuel hL hfs hfg
    num_max_try 0 ⟨[⟨none, start⟩], "start"⟩ ⟨[⟨none, goal⟩], "goal"⟩ p ?_ ?_ ?_ hrun
  · exact Or.inl ⟨rfl, rfl, structInv_singleton start "start",
      structInv_singleton goal "goal"⟩
  · exact metricInv_singleton start "start" extend_length is_free
  · exact metricInv_singleton goal "goal" extend_length is_free

/-!
## The extend state machine and the termination of connect
-/

theorem squared_euclidean_self : ∀ a : List F, squared_euclidean a a = 0 := by
  intro a
  induction a with
  | nil => rfl
  | cons x a ih =>
    simp only [squared_euclidean, List.zipWith_cons_cons, List.sum_cons] at *
    rw [ih]
    ring

/-- C6: one `extend` step, fully characterised over the reals: the nearest
vertex minimises the (squared) distance to the target; the candidate is the
target itself when the nearest vertex is strictly within `extend_length` of
it and otherwise lies exactly `extend_length` along the straight segment
from the nearest vertex; an infeasible candidate yields Trapped with the
tree unchanged; a feasible one is appended with the nearest vertex as its
parent, and the step answers Reached exactly when the candidate's Euclidean
distance to the target is below `extend_length`, Advanced otherwise. -/
theorem extend_spec (t : Tree ℝ) (q_target : List ℝ) (extend_length : ℝ)
    (is_free : List ℝ → Bool) (hne : t.vertices ≠ []) (hL : 0 < extend_length) :
    (get_nearest_index t q_target < t.vertices.length ∧
      ∀ j, j < t.vertices.length →
        squared_euclidean (dataD t (get_nearest_index t q_target)) q_target ≤
          squared_euclidean (dataD t j) q_target) ∧
    (Real.sqrt (squared_euclidean q_target (dataD t (get_nearest_index t q_target))) <
        extend_length →
      candidate Real.sqrt t q_target extend_length = q_target) ∧
    (¬ Real.sqrt (squared_euclidean q_target (dataD t (get_nearest_index t q_target))) <
        extend_length →
      Real.sqrt (squared_euclidean (dataD t (get_nearest_index t q_target))
        (candidate Real.sqrt t q_target extend_length)) = extend_length) ∧
    (is_free (candidate Real.sqrt t q_target extend_length) = false →
      extend Real.sqrt t q_target extend_length is_free = (ExtendStatus.Trapped, t)) ∧
    (is_free (candidate Real.sqrt t q_target extend_length) = true →
      parentD (extend Real.sqrt t q_target extend_length is_free).2 t.vertices.length =
          some (get_nearest_index t q_target) ∧
      dataD (extend Real.sqrt t q_target extend_length is_free).2 t.vertices.length =
          candidate Real.sqrt t q_target extend_length ∧
      ((extend Real.sqrt t q_target extend_length is_free).1 =
          ExtendStatus.Reached t.vertices.length ↔
        Real.sqrt (squared_euclidean (candidate Real.sqrt t q_target extend_length)
          q_target) < extend_length) ∧
      ((extend Real.sqrt t q_target extend_length is_free).1 =
          ExtendStatus.Advanced t.vertices.length ↔
        ¬ Real.sqrt (squared_euclidean (candidate Real.sqrt t q_target extend_length)
          q_target) < extend_length)) := by
  refine ⟨⟨get_nearest_index_lt t q_target hne, get_nearest_index_min t q_target⟩,
    ?_, ?_, ?_, ?_⟩
  · intro hc
    unfold candidate
    rw [if_pos hc]
  · intro hc
    unfold candidate
    rw [if_neg hc]
    push_neg at hc
    exact sqrt_squared_euclidean_steer_from _ _ _ hL hc
  · intro hfree
    rcases extend_cases Real.sqrt t q_target extend_length is_free with ⟨_, heq⟩ | ⟨hb, _, _⟩
    · exact heq
    · rw [hfree] at hb
      exact Bool.noConfusion hb
  · intro hfree
    rcases extend_cases Real.sqrt t q_target extend_length is_free with ⟨hb, _⟩ | ⟨_, heq2, heq1⟩
    · rw [hfree] at hb
      exact Bool.noConfusion hb
    · refine ⟨?_, ?_, ?_, ?_⟩
      · rw [heq2, parentD_insertLinked, if_pos rfl]
      · rw [heq2, dataD_insertLinked, if_pos rfl]
      · rw [heq1]
        constructor
        · intro h
          by_contra hc
          rw [if_neg hc] at h
          exact ExtendStatus.noConfusion h
        · intro h
          rw [if_pos h]
      · rw [heq1]
        constructor
        · intro h hc
          rw [if_pos hc] at h
          exact ExtendStatus.noConfusion h
        · intro h
          rw [if_neg h]

/-- Witness for C6 at a one-vertex tree. -/
theorem extend_spec_witness :
    ((⟨[⟨none, [0]⟩], "start"⟩ : Tree ℝ) : Tree ℝ).vertices ≠ [] ∧ (0 : ℝ) < 1 ∧
      (get_nearest_index (⟨[⟨none, [0]⟩], "start"⟩ : Tree ℝ) [0] <
          (⟨[⟨none, ([0] : List ℝ)⟩], "start"⟩ : Tree ℝ).vertices.length ∧
        ∀ j, j < (⟨[⟨none, ([0] : List ℝ)⟩], "start"⟩ : Tree ℝ).vertices.length →
          squared_euclidean (dataD (⟨[⟨none, [0]⟩], "start"⟩ : Tree ℝ)
            (get_nearest_index (⟨[⟨none, [0]⟩], "start"⟩ : Tree ℝ) [0])) [0] ≤
            squared_euclidean (dataD (⟨[⟨none, [0]⟩], "start"⟩ : Tree ℝ) j) [0]) :=
  ⟨by simp, by norm_num,
    (extend_spec (⟨[⟨none, [0]⟩], "start"⟩ : Tree ℝ) [0] 1 (fun _ => true)
      (by simp) (by norm_num)).1⟩

/-- If `extend` does not answer Advanced, `connect` stops in this very
iteration. -/
theorem connectFuel_succ_done (sqrtF : F → F) (t t2 : Tree F) (q : List F) (L : F)
    (free : List F → Bool) (s : ExtendStatus) (fuel : Nat)
    (hE : extend sqrtF t q L free = (s, t2)) (hs : ∀ m, s ≠ ExtendStatus.Advanced m) :
    connectFuel sqrtF q L free (fuel + 1) t = some (s, t2) := by
  simp only [connectFuel]
  rw [hE]
  cases s with
  | Advanced m => exact absurd rfl (hs m)
  | Reached m => rfl
  | Trapped => rfl

/-- When the nearest vertex is strictly within `L` of the target, the next
`extend` answers Reached or Trapped (the candidate is the target itself, at
distance zero), so `connect` stops. -/
theorem connectFuel_done_of_close (t : Tree ℝ) (q : List ℝ) (L : ℝ)
    (free : List ℝ → Bool) (fuel : Nat) (hL : 0 < L)
    (hc : Real.sqrt (squared_euclidean q (dataD t (get_nearest_index t q))) < L) :
    ∃ r, connectFuel Real.sqrt q L free (fuel + 1) t = some r := by
  have hcand : candidate Real.sqrt t q L = q := by
    unfold candidate
    rw [if_pos hc]
  rcases hE : extend Real.sqrt t q L free with ⟨s, t2⟩
  refine ⟨(s, t2), connectFuel_succ_done Real.sqrt t t2 q L free s fuel hE ?_⟩
  intro m hsm
  subst hsm
  rcases extend_cases Real.sqrt t q L free with ⟨_, heq⟩ | ⟨_, _, heq1⟩
  · rw [heq] at hE
    injection hE with h1 _
    exact ExtendStatus.noConfusion h1
  · rw [hE] at heq1
    have hzero : Real.sqrt (squared_euclidean (candidate Real.sqrt t q L) q) < L := by
      rw [hcand, squared_euclidean_self, Real.sqrt_zero]
      exact hL
    rw [if_pos hzero] at heq1
    exact ExtendStatus.noConfusion heq1

/-- C10, termination core: if the nearest vertex is within `n·L` of the
target, `connect` completes within `n+1` iterations — each Advanced step
inserts a vertex exactly `L` closer to the target, so the nearest distance
drops by `L` per iteration. -/
theorem connectFuel_terminates_aux (q : List ℝ) (L : ℝ) (free : List ℝ → Bool)
    (hL : 0 < L) :
    ∀ (n : Nat) (t : Tree ℝ), t.vertices ≠ [] →
      Real.sqrt (squared_euclidean q (dataD t (get_nearest_index t q))) ≤ n * L →
      ∃ r, connectFuel Real.sqrt q L free (n + 1) t = some r := by
  intro n
  induction n with
  | zero =>
    intro t hne hd
    refine connectFuel_done_of_close t q L free 0 hL ?_
    have h0 : 0 ≤ Real.sqrt (squared_euclidean q (dataD t (get_nearest_index t q))) :=
      Real.sqrt_nonneg _
    have : Real.sqrt (squared_euclidean q (dataD t (get_nearest_index t q))) = 0 := by
      simp only [Nat.cast_zero, zero_mul] at hd
      linarith
    rw [this]
    exact hL
  | succ n ih =>
    intro t hne hd
    by_cases hc : Real.sqrt (squared_euclidean q (dataD t (get_nearest_index t q))) < L
    · exact connectFuel_done_of_close t q L free (n + 1) hL hc
    · push_neg at hc
      have hcand : candidate Real.sqrt t q L =
          steer L (Real.sqrt (squared_euclidean q (dataD t (get_nearest_index t q))))
            (dataD t (get_nearest_index t q)) q := by
        unfold candidate
        rw [if_neg (not_lt.mpr hc)]
      rcases hE : extend Real.sqrt t q L free with ⟨s, t2⟩
      cases s with
      | Trapped =>
        exact ⟨(ExtendStatus.Trapped, t2),
          connectFuel_succ_done Real.sqrt t t2 q L free ExtendStatus.Trapped (n + 1) hE
            (fun m => ExtendStatus.noConfusion)⟩
      | Reached m =>
        exact ⟨(ExtendStatus.Reached m, t2),
          connectFuel_succ_done Real.sqrt t t2 q L free (ExtendStatus.Reached m) (n + 1) hE
            (fun m2 => ExtendStatus.noConfusion)⟩
      | Advanced m =>
        obtain ⟨hm, hfree, ht2⟩ :=
          extend_new_index Real.sqrt t q L free m (Or.inl (by rw [hE]))
        have hstep : connectFuel Real.sqrt q L free (n + 1 + 1) t =
            connectFuel Real.sqrt q L free (n + 1) t2 := by
          simp only [connectFuel]
          rw [hE]
        have hne2 : t2.vertices ≠ [] := by
          have hlen : t2.vertices.length = t.vertices.length + 1 := by
            rw [show t2 = (extend Real.sqrt t q L free).2 from by rw [hE], ht2,
              vertices_length_add_edge, vertices_length_add_vertex]
          intro hnil
          rw [hnil] at hlen
          simp at hlen
        -- the new vertex is exactly L closer to the target
        have hdist2 : Real.sqrt (squared_euclidean (candidate Real.sqrt t q L) q) =
            Real.sqrt (squared_euclidean q (dataD t (get_nearest_index t q))) - L := by
          rw [hcand]
          exact sqrt_squared_euclidean_steer_to _ _ _ hL hc
        -- the new nearest distance is bounded by the new vertex's distance
        have hnew : squared_euclidean (dataD t2 (get_nearest_index t2 q)) q ≤
            squared_euclidean (candidate Real.sqrt t q L) q := by
          have hmem := get_nearest_index_min t2 q t.vertices.length (by
            rw [show t2 = (extend Real.sqrt t q L free).2 from by rw [hE], ht2,
              vertices_length_add_edge, vertices_length_add_vertex]
            omega)
          have hdat : dataD t2 t.vertices.length = candidate Real.sqrt t q L := by
            rw [show t2 = (extend Real.sqrt t q L free).2 from by rw [hE], ht2,
              dataD_insertLinked, if_pos rfl]
          rwa [hdat] at hmem
        have hmono : Real.sqrt (squared_euclidean q (dataD t2 (get_nearest_index t2 q))) ≤
            Real.sqrt (squared_euclidean q (dataD t (get_nearest_index t q))) - L := by
          rw [squared_euclidean_comm]
          calc Real.sqrt (squared_euclidean (dataD t2 (get_nearest_index t2 q)) q)
              ≤ Real.sqrt (squared_euclidean (candidate Real.sqrt t q L) q) :=
                Real.sqrt_le_sqrt hnew
            _ = _ := hdist2
        have hbound : Real.sqrt (squared_euclidean q (dataD t2 (get_nearest_index t2 q))) ≤
            n * L := by
          have : (n.succ : ℝ) * L = n * L + L := by
            push_cast
            ring
          rw [this] at hd
          linarith
        obtain ⟨r, hr⟩ := ih t2 hne2 hbound
        exact ⟨r, by rw [hstep]; exact hr⟩

/-- C10: on every nonempty tree, with any total predicate and positive step,
each Advanced outcome of `extend` adds a vertex lying exactly
`extend_length` closer to the target than the previously nearest vertex,
and `connect` terminates: some finite fuel makes `connectFuel` return. -/
theorem connect_terminates (t : Tree ℝ) (q_target : List ℝ) (extend_length : ℝ)
    (is_free : List ℝ → Bool) (hne : t.vertices ≠ []) (hL : 0 < extend_length) :
    (∀ n t2, extend Real.sqrt t q_target extend_length is_free =
        (ExtendStatus.Advanced n, t2) →
      Real.sqrt (squared_euclidean (dataD t2 n) q_target) =
        Real.sqrt (squared_euclidean q_target (dataD t (get_nearest_index t q_target))) -
          extend_length) ∧
    ∃ fuel r, connectFuel Real.sqrt q_target extend_length is_free fuel t = some r := by
  constructor
  · intro n t2 hE
    obtain ⟨hm, hfree, ht2⟩ :=
      extend_new_index Real.sqrt t q_target extend_length is_free n (Or.inl (by rw [hE]))
    have hdat : dataD t2 n = candidate Real.sqrt t q_target extend_length := by
      rw [show t2 = (extend Real.sqrt t q_target extend_length is_free).2 from by rw [hE],
        ht2, hm, dataD_insertLinked, if_pos rfl]
    have hadv : ¬ Real.sqrt (squared_euclidean
        (candidate Real.sqrt t q_target extend_length) q_target) < extend_length := by
      rcases extend_cases Real.sqrt t q_target extend_length is_free with
        ⟨_, heq⟩ | ⟨_, _, heq1⟩
      · rw [heq] at hE
        injection hE with h1 _
        exact ExtendStatus.noConfusion h1
      · rw [hE] at heq1
        intro hcl
        rw [if_pos hcl] at heq1
        exact ExtendStatus.noConfusion heq1
    have hc : extend_length ≤
        Real.sqrt (squared_euclidean q_target (dataD t (get_nearest_index t q_target))) := by
      by_contra hcl
      push_neg at hcl
      have hcand : candidate Real.sqrt t q_target extend_length = q_target := by
        unfold candidate
        rw [if_pos hcl]
      rw [hcand, squared_euclidean_self, Real.sqrt_zero] at hadv
      exact hadv hL
    have hcand : candidate Real.sqrt t q_target extend_length =
        steer extend_length
          (Real.sqrt (squared_euclidean q_target (dataD t (get_nearest_index t q_target))))
          (dataD t (get_nearest_index t q_target)) q_target := by
      unfold candidate
      rw [if_neg (not_lt.mpr hc)]
    rw [hdat, hcand]
    exact sqrt_squared_euclidean_steer_to _ _ _ hL hc
  · obtain ⟨n0, hn0⟩ := exists_nat_ge
      (Real.sqrt (squared_euclidean q_target (dataD t (get_nearest_index t q_target))) /
        extend_length)
    have hb : Real.sqrt (squared_euclidean q_target
        (dataD t (get_nearest_index t q_target))) ≤ n0 * extend_length := by
      rw [div_le_iff₀ hL] at hn0
      linarith
    obtain ⟨r, hr⟩ := connectFuel_terminates_aux q_target extend_length is_free hL n0 t hne hb
    exact ⟨n0 + 1, r, hr⟩

/-- Witness for C10 at a one-vertex tree. -/
theorem connect_terminates_witness :
    ((⟨[⟨none, [0]⟩], "start"⟩ : Tree ℝ) : Tree ℝ).vertices ≠ [] ∧ (0 : ℝ) < 1 ∧
      ∃ fuel r, connectFuel Real.sqrt [0] 1 (fun _ => true) fuel
        (⟨[⟨none, [0]⟩], "start"⟩ : Tree ℝ) = some r :=
  ⟨by simp, by norm_num,
    (connect_terminates (⟨[⟨none, [0]⟩], "start"⟩ : Tree ℝ) [0] 1 (fun _ => true)
      (by simp) (by norm_num)).2⟩

/-!
## Smoothing only deletes waypoints
-/

theorem eraseReps_sublist {α : Type} (i : Nat) :
    ∀ (k : Nat) (l : List α), (eraseReps l i k).Sublist l := by
  intro k
  induction k with
  | zero => intro l; exact List.Sublist.refl l
  | succ k ih =>
    intro l
    exact (ih (l.eraseIdx i)).trans (List.eraseIdx_sublist l i)

theorem smoothLoop_sublist (sqrtF : F → F) (is_free : List F → Bool) (extend_length : F)
    (oracle : Nat → Nat × Nat) (ifuel : Nat) :
    ∀ (tries k : Nat) (path : List (List F)),
      (smoothLoop sqrtF is_free extend_length oracle ifuel tries k path).Sublist path := by
  intro tries
  induction tries with
  | zero => intro k path; exact List.Sublist.refl path
  | succ tries ih =>
    intro k path
    simp only [smoothLoop]
    split
    · split
      · exact eraseReps_sublist _ _ path
      · exact (ih (k + 1) _).trans (eraseReps_sublist _ _ path)
    · exact ih (k + 1) path

/-- C8: smoothing never lengthens the path in waypoint count, keeps every
waypoint feasible when the input path's waypoints all were (the result is a
sublist of the input), and returns paths of fewer than 3 points
unmodified. -/
theorem smooth_path_spec (sqrtF : F → F) (path : List (List F)) (is_free : List F → Bool)
    (extend_length : F) (num_max_try : Nat) (oracle : Nat → Nat × Nat) (ifuel : Nat)
    (hfree : ∀ x ∈ path, is_free x = true) :
    (smooth_path sqrtF path is_free extend_length num_max_try oracle ifuel).length ≤
        path.length ∧
    (∀ x ∈ smooth_path sqrtF path is_free extend_length num_max_try oracle ifuel,
        is_free x = true) ∧
    (path.length < 3 →
      smooth_path sqrtF path is_free extend_length num_max_try oracle ifuel = path) := by
  have hs : (smooth_path sqrtF path is_free extend_length num_max_try oracle ifuel).Sublist
      path := by
    unfold smooth_path
    split
    · exact List.Sublist.refl path
    · exact smoothLoop_sublist sqrtF is_free extend_length oracle ifuel num_max_try 0 path
  refine ⟨hs.length_le, fun x hx => hfree x (hs.mem hx), ?_⟩
  intro h3
  unfold smooth_path
  rw [if_pos h3]

/-- Witness for C8 on a concrete three-point path. -/
theorem smooth_path_spec_witness :
    (∀ x ∈ [[(0 : ℝ)], [1], [2]], (fun _ : List ℝ => true) x = true) ∧
      ((smooth_path Real.sqrt [[(0 : ℝ)], [1], [2]] (fun _ => true) 1 1
          (fun _ => (0, 0)) 5).length ≤ [[(0 : ℝ)], [1], [2]].length ∧
        (∀ x ∈ smooth_path Real.sqrt [[(0 : ℝ)], [1], [2]] (fun _ => true) 1 1
            (fun _ => (0, 0)) 5, (fun _ : List ℝ => true) x = true) ∧
        ([[(0 : ℝ)], [1], [2]].length < 3 →
          smooth_path Real.sqrt [[(0 : ℝ)], [1], [2]] (fun _ => true) 1 1
            (fun _ => (0, 0)) 5 = [[(0 : ℝ)], [1], [2]])) :=
  ⟨by simp,
    smooth_path_spec Real.sqrt [[(0 : ℝ)], [1], [2]] (fun _ => true) 1 1
      (fun _ => (0, 0)) 5 (by simp)⟩

/-- Witness for the amended C4 at the concrete run of `dual_run_zero`. -/
theorem dual_rrt_connect_valid_witness :
    (0 : ℝ) < 1 ∧
      (∃ s1 s2, [[(0 : ℝ)], [0]] = s1 ++ s2 ∧
        List.Chain' (fun a b => Real.sqrt (squared_euclidean a b) ≤ 1) s1 ∧
        List.Chain' (fun a b => Real.sqrt (squared_euclidean a b) ≤ 1) s2 ∧
        ∀ x ∈ [[(0 : ℝ)], [0]], (fun _ : List ℝ => true) x = true) :=
  ⟨by norm_num,
    dual_rrt_connect_valid [(0 : ℝ)] [0] (fun _ => true) (fun _ => [0]) 1 1 1
      [[0], [0]] (by norm_num) rfl rfl dual_run_zero⟩

end Rrt
